import Mathlib

/-!
Verification development for the alcep repository: an all-corrections Earley
parser (ALCEP), its offline variant (OALCEP), and the algebra of word-ordered
corrections with the CSPPF-to-corrections transformer.

The definitions below are shallow embeddings of the Python sources:
  * `src/corrections/edit_operations.py` — the four edit primitives and their
    partial-order comparison;
  * `src/lark/corrections/word_ordered_correction.py` — apply, concatenate,
    can_simplify, compare;
  * `src/lark/corrections/word_ordered_correction_with_counter_of_edits.py` —
    the counted variant of concatenate;
  * `src/corrections/transformer.py` — visit_token_node, the per-node
    aggregation of correction sets, and __compute_smallest_corrections;
  * `src/lark/parsers/alcep.py` and `src/lark/parsers/oalcep.py` — the
    fragments of the two recognizers that decide the claims under study
    (to_scan flow of `_parse`, the deletion/scanner rules, and the
    edge synthesis of `__compute_edges`).

Tokens, terminal labels and inserted words are strings in the source; they are
embedded as `List Char`.
-/

namespace Alcep

/-- The four edit primitives of `corrections/edit_operations.py`:
`InsertionOperation(word)`, `DeletionOperation(letter)`,
`ReplacementOperation(letter, replaced_by)`, `ReadOperation(letter)`. -/
inductive EditOp where
  | ins (word : List Char)
  | del (letter : List Char)
  | rep (letter replacedBy : List Char)
  | read (letter : List Char)
deriving DecidableEq

/-- The comparison constants of `corrections/constants.py` as used throughout
the source: `CORRECTION_EQUAL = 0`, `CORRECTION_INCOMPARABLE = -1`,
`CORRECTION_SMALLER = 1` (self is smaller), `CORRECTION_BIGGER = 2`
(other is smaller). -/
inductive CompareResult where
  | equal
  | incomparable
  | smaller
  | bigger
deriving DecidableEq

/-- The scan loop of `__is_scattered_subsequence`
(`edit_operations.py`, lines 69-84): walk the longer word and advance a
pointer into the (non-empty) shorter word on every match; report success as
soon as the pointer reaches the end of the shorter word.  The first argument
is the longer word, the second the remaining part of the shorter word. -/
def scatterScan : List Char → List Char → Bool
  | [], _ => false
  | _ :: _, [] => true
  | l :: ls, s :: ss =>
    if l = s then (if ss.isEmpty then true else scatterScan ls ss)
    else scatterScan ls (s :: ss)

/-- `__is_scattered_subsequence(shorter_word, longer_word)` of
`edit_operations.py` (lines 45-84): `EQUAL` when the words coincide,
`SMALLER` when the shorter word is a scattered subsequence of the longer one,
`INCOMPARABLE` otherwise. -/
def isScatteredSubsequence (shorter longer : List Char) : CompareResult :=
  if shorter = longer then .equal
  else if shorter.length = 0 then .smaller
  else if scatterScan longer shorter then .smaller
  else .incomparable

/-- `InsertionOperation.compare` restricted to its insertion-vs-insertion
case (`edit_operations.py`, lines 86-102): dispatch on which word is shorter
and flip a `SMALLER` verdict when the roles were swapped. -/
def insCompare (u v : List Char) : CompareResult :=
  if u.length ≤ v.length then isScatteredSubsequence u v
  else
    match isScatteredSubsequence v u with
    | .smaller => .bigger
    | r => r

/-- The comparison of two edit operations, combining the `compare` methods of
the four operation classes of `edit_operations.py`.  Comparing an insertion
with a non-insertion raises in the source (`assert` in
`InsertionOperation.compare`, explicit `raise` in the other three classes);
those paths are embedded as `Except.error` carrying the source message. -/
def opCompare : EditOp → EditOp → Except String CompareResult
  | .ins u, .ins v => .ok (insCompare u v)
  | .ins _, _ => .error "An insertion operation can only compare with an insertion operation. "
  | .del x, .read l => .ok (if x = l then .bigger else .incomparable)
  | .del x, .del l => .ok (if x = l then .equal else .incomparable)
  | .del _, .rep _ _ => .ok .incomparable
  | .del _, .ins _ => .error "An Deletion operation cannot compare with an Insertion operation. "
  | .rep x _, .read l => .ok (if x = l then .bigger else .incomparable)
  | .rep _ _, .del _ => .ok .incomparable
  | .rep x y, .rep l r => .ok (if x = l ∧ y = r then .equal else .incomparable)
  | .rep _ _, .ins _ => .error "An Replacement operation cannot compare with an Insertion operation. "
  | .read x, .read l => .ok (if x = l then .equal else .incomparable)
  | .read x, .del l => .ok (if x = l then .smaller else .incomparable)
  | .read x, .rep l _ => .ok (if x = l then .smaller else .incomparable)
  | .read _, .ins _ => .error "An Read operation cannot compare with an Insertion operation. "

/-- Whether an edit operation is an insertion. -/
def EditOp.isIns : EditOp → Bool
  | .ins _ => true
  | _ => false

/-- The `.word` attribute access on an operation that the surrounding code
guarantees to be an `InsertionOperation` (the boundary operations of a
word-ordered correction).  Only insertions carry the attribute; on any other
operation the source would raise, so the value returned for those is
irrelevant to every theorem below (all of which assume the word-ordered
shape). -/
def insWordOf : EditOp → List Char
  | .ins w => w
  | _ => []

/-- Python `w.endswith(x)` on strings embedded as `List Char`. -/
def listEndsWith (w x : List Char) : Bool :=
  decide (w.drop (w.length - x.length) = x)

/-- Python `w.startswith(r)` on strings embedded as `List Char`. -/
def listStartsWith (w r : List Char) : Bool :=
  decide (w.take r.length = r)

/-- The optional validator of the `WordOrderedCorrection` constructor
(`word_ordered_correction.py`, lines 31-43): an odd number of operations,
insertions at the even indices and read/replacement/deletion operations at
the odd indices. -/
def validateWordOrdered (ops : List EditOp) : Bool :=
  ops.length % 2 == 1 &&
    (List.range ops.length).all fun i =>
      if i % 2 == 0 then
        match ops[i]? with
        | some (.ins _) => true
        | _ => false
      else
        match ops[i]? with
        | some (.ins _) => false
        | some _ => true
        | none => false

/-- `WordOrderedCorrection.apply` (`word_ordered_correction.py`, lines
45-71): fold over the operations, emitting the letter of a read, nothing for
a deletion, the inserted word for an insertion and the replacement letter for
a replacement. -/
def applyCorr : List EditOp → List Char
  | [] => []
  | op :: rest =>
    (match op with
     | .read l => l
     | .del _ => []
     | .ins w => w
     | .rep _ r => r) ++ applyCorr rest

/-- `WordOrderedCorrection.can_simplify` (`word_ordered_correction.py`,
lines 105-177).  `self_last_operation` is `a.operations[-1]` and
`other_first_operation` is `b.operations[0]`; both are assumed to be
insertions (word-ordered shape). -/
def can_simplify (a b : List EditOp) : Bool :=
  let wa := insWordOf (a.getLastD (.ins []))
  let wb := insWordOf (b.headD (.ins []))
  if !wa.isEmpty && !wb.isEmpty then false
  else if !wa.isEmpty && wb.isEmpty then
    if b.length == 1 then false
    else
      match (b[1]? : Option EditOp) with
      | some (.del _) => true
      | some (.rep x _) => listEndsWith wa x
      | _ => false
  else if wa.isEmpty && !wb.isEmpty then
    if a.length == 1 then false
    else
      match (a[a.length - 2]? : Option EditOp) with
      | some (.del _) => true
      | some (.rep _ r) => listStartsWith wb r
      | _ => false
  else
    if b.length == 1 || a.length == 1 then false
    else
      match (a[a.length - 2]? : Option EditOp), (b[1]? : Option EditOp) with
      | some (.rep _ r), some (.del x) => r == x
      | _, _ => false

/-- `WordOrderedCorrection.concatenate` (`word_ordered_correction.py`, lines
73-103): return the other correction when one side is empty; otherwise
reject (`None`) when `simplify` is set and the fused correction would be
simplifiable, and else fuse the boundary insertions by word concatenation.
-/
def concatenate (a b : List EditOp) (simplify : Bool) : Option (List EditOp) :=
  if a.isEmpty || b.isEmpty then
    if a.isEmpty then some b else some a
  else if simplify && can_simplify a b then none
  else
    some (a.dropLast
      ++ [.ins (insWordOf (a.getLastD (.ins [])) ++ insWordOf (b.headD (.ins [])))]
      ++ b.tail)

/-- The loop of `WordOrderedCorrection.compare` (`word_ordered_correction.py`,
lines 194-216): walk the zipped operation pairs keeping the current verdict;
a pointwise `INCOMPARABLE` is final, the first strict verdict pins the
direction, and a strict verdict against the pinned direction yields
`INCOMPARABLE`. -/
def compareFold : List (EditOp × EditOp) → CompareResult → Except String CompareResult
  | [], cur => .ok cur
  | (x, y) :: rest, cur =>
    match opCompare x y with
    | .error e => .error e
    | .ok .incomparable => .ok .incomparable
    | .ok .smaller =>
      match cur with
      | .equal => compareFold rest .smaller
      | .bigger => .ok .incomparable
      | .smaller => compareFold rest .smaller
      | .incomparable => compareFold rest .incomparable
    | .ok .bigger =>
      match cur with
      | .equal => compareFold rest .bigger
      | .smaller => .ok .incomparable
      | .bigger => compareFold rest .bigger
      | .incomparable => compareFold rest .incomparable
    | .ok .equal => compareFold rest cur

/-- `WordOrderedCorrection.compare` (`word_ordered_correction.py`, lines
179-216).  The source asserts that both corrections have the same length;
the assertion is embedded as an `Except.error` carrying its message. -/
def compareCorr (a b : List EditOp) : Except String CompareResult :=
  if a.length = b.length then compareFold (a.zip b) .equal
  else .error "Only word_ordered corrections of the same length can be compared."

/-- A counted word-ordered correction
(`word_ordered_correction_with_counter_of_edits.py`): the operation list
together with the three edit counters. -/
structure CountedCorr where
  operations : List EditOp
  counter_of_insertions : Nat
  counter_of_deletions : Nat
  counter_of_replacements : Nat
deriving DecidableEq

/-- The class-level ceilings of `WordOrderedCorrectionWithCounterOfEdits`
(`-1` disables a bound). -/
structure EditBounds where
  max_number_of_insertions : Int
  max_number_of_deletions : Int
  max_number_of_replacement : Int
  max_number_of_edits : Int
deriving DecidableEq

/-- `WordOrderedCorrectionWithCounterOfEdits.concatenate`
(`word_ordered_correction_with_counter_of_edits.py`, lines 29-88): as the
plain concatenate, but summing the per-kind counters and rejecting (`None`)
whenever an enabled ceiling is exceeded. -/
def countedConcat (B : EditBounds) (a b : CountedCorr) (simplify : Bool) :
    Option CountedCorr :=
  if a.operations.isEmpty || b.operations.isEmpty then
    if a.operations.isEmpty then some b else some a
  else if simplify && can_simplify a.operations b.operations then none
  else
    let ni := a.counter_of_insertions + b.counter_of_insertions
    let nd := a.counter_of_deletions + b.counter_of_deletions
    let nr := a.counter_of_replacements + b.counter_of_replacements
    if B.max_number_of_insertions ≠ -1 ∧ (ni : Int) > B.max_number_of_insertions then none
    else if B.max_number_of_deletions ≠ -1 ∧ (nd : Int) > B.max_number_of_deletions then none
    else if B.max_number_of_replacement ≠ -1 ∧ (nr : Int) > B.max_number_of_replacement then none
    else if B.max_number_of_edits ≠ -1 ∧ ((ni + nd + nr : Nat) : Int) > B.max_number_of_edits then
      none
    else
      some ⟨a.operations.dropLast
              ++ [.ins (insWordOf (a.operations.getLastD (.ins []))
                    ++ insWordOf (b.operations.headD (.ins [])))]
              ++ b.operations.tail,
            ni, nd, nr⟩

/-! ### The CSPPF-to-corrections transformer (`src/corrections/transformer.py`) -/

/-- `CSPPFToCorrectionTransformer.visit_token_node` for plain corrections
(`transformer.py`, lines 401-407): an insertion token becomes the
one-operation correction `[Insert(w)]`; any other token is wrapped between
two empty insertions. -/
def visitTokenNodePlain (op : EditOp) : List EditOp :=
  match op with
  | .ins _ => [op]
  | _ => [.ins [], op, .ins []]

/-- `CSPPFToCorrectionTransformer.visit_token_node` for counted corrections
(`transformer.py`, lines 375-399): insertion/replacement/deletion tokens set
the corresponding counter to 1; a read token is split into one single-letter
read per character of its letter, interleaved with empty insertions, with all
counters left at 0. -/
def visitTokenNodeCounted : EditOp → CountedCorr
  | .ins w => ⟨[.ins w], 1, 0, 0⟩
  | .rep x y => ⟨[.ins [], .rep x y, .ins []], 0, 0, 1⟩
  | .read l => ⟨.ins [] :: l.foldr (fun ch acc => .read [ch] :: .ins [] :: acc) [], 0, 0, 0⟩
  | .del x => ⟨[.ins [], .del x, .ins []], 0, 1, 0⟩

/-- Modelled from the spec: the CSPPF node kinds of §3
(`lark.parsers.earley_forest` is not part of the repository sources).  A
token node carries one edit operation; a packed node has an optional left
child and a right child; a symbol or intermediate node has an ordered list of
packed children.  Symbol labels and spans are omitted: the per-node
correction sets of an acyclic forest do not depend on them. -/
inductive FNode where
  | tok (op : EditOp)
  | packed (left : Option FNode) (right : FNode)
  | sym (children : List FNode)

mutual

/-- The correction set a node of an acyclic tree-shaped CSPPF contributes,
for plain corrections, following the aggregation of `transformer.py`:
`visit_token_node` for token nodes; `visit_packed_node_out` (lines 245-301):
the right set when the left child is absent, otherwise the cross product of
the two children's sets under `concatenate(simplify=only_simplified)`; and
`visit_symbol_node_out` (lines 322-361): the union over the packed children.
The explicit-stack walk `__visit` only organises in/out visiting and
path-keyed memoization for shared or cyclic nodes; on an acyclic tree it
computes exactly these sets. -/
def nodeCorrectionsPlain (simplify : Bool) : FNode → List (List EditOp)
  | .tok op => [visitTokenNodePlain op]
  | .packed none right => nodeCorrectionsPlain simplify right
  | .packed (some l) right =>
    (nodeCorrectionsPlain simplify l).flatMap fun lc =>
      (nodeCorrectionsPlain simplify right).filterMap fun rc =>
        concatenate lc rc simplify
  | .sym children => nodeCorrectionsPlainList simplify children

/-- The union over a symbol node's packed children, in child order. -/
def nodeCorrectionsPlainList (simplify : Bool) : List FNode → List (List EditOp)
  | [] => []
  | c :: cs => nodeCorrectionsPlain simplify c ++ nodeCorrectionsPlainList simplify cs

end

mutual

/-- As `nodeCorrectionsPlain`, for counted corrections under the configured
bounds (`corrections_with_edit_counter = true`). -/
def nodeCorrectionsCounted (B : EditBounds) (simplify : Bool) : FNode → List CountedCorr
  | .tok op => [visitTokenNodeCounted op]
  | .packed none right => nodeCorrectionsCounted B simplify right
  | .packed (some l) right =>
    (nodeCorrectionsCounted B simplify l).flatMap fun lc =>
      (nodeCorrectionsCounted B simplify right).filterMap fun rc =>
        countedConcat B lc rc simplify
  | .sym children => nodeCorrectionsCountedList B simplify children

/-- The union over a symbol node's packed children, in child order. -/
def nodeCorrectionsCountedList (B : EditBounds) (simplify : Bool) : List FNode → List CountedCorr
  | [] => []
  | c :: cs => nodeCorrectionsCounted B simplify c ++ nodeCorrectionsCountedList B simplify cs

end

/-- Total number of edits recorded by the counters of a counted correction
(insertions + deletions + replacements). -/
def CountedCorr.totalEdits (c : CountedCorr) : Nat :=
  c.counter_of_insertions + c.counter_of_deletions + c.counter_of_replacements

/-- The inner loop of
`CSPPFToCorrectionTransformer.__compute_smallest_corrections`
(`transformer.py`, lines 444-458): compare `correction1` with every later
list element; a `SMALLER` verdict removes the later element from the set of
possible smallest corrections, the first `BIGGER` verdict stops the scan with
a negative flag (the caller then removes `correction1`).  Elements are
identified by their index in the list snapshot, mirroring the identity-based
set membership of the source. -/
def smallestInnerScan (c1 : List EditOp) :
    List (Nat × List EditOp) → Finset Nat → Except String (Finset Nat × Bool)
  | [], poss => .ok (poss, true)
  | (j, c2) :: rest, poss =>
    match compareCorr c1 c2 with
    | .error e => .error e
    | .ok .smaller => smallestInnerScan c1 rest (poss.erase j)
    | .ok .bigger => .ok (poss, false)
    | .ok _ => smallestInnerScan c1 rest poss

/-- The outer loop of `__compute_smallest_corrections` (`transformer.py`,
lines 434-461): walk the list snapshot; skip elements already removed from
the possible-smallest set; otherwise run the inner scan and either add the
element to the result or remove it. -/
def smallestOuterLoop :
    List (Nat × List EditOp) → Finset Nat → List (List EditOp) →
      Except String (List (List EditOp))
  | [], _, res => .ok res
  | (i, c1) :: rest, poss, res =>
    if i ∈ poss then
      match smallestInnerScan c1 rest poss with
      | .error e => .error e
      | .ok (poss2, true) => smallestOuterLoop rest poss2 (res ++ [c1])
      | .ok (poss2, false) => smallestOuterLoop rest (poss2.erase i) res
    else smallestOuterLoop rest poss res

/-- `__compute_smallest_corrections` (`transformer.py`, lines 411-463).  The
assertion failure raised by `compare` on corrections of different lengths
propagates as `Except.error`. -/
def computeSmallestCorrections (S : List (List EditOp)) :
    Except String (List (List EditOp)) :=
  smallestOuterLoop S.enum (Finset.range S.length) []

/-! ### Recognizer fragments (`src/lark/parsers/alcep.py`, `oalcep.py`) -/

/-- A grammar symbol: a terminal or a non-terminal, identified by name.
Terminal names are also used as their labels (the label of a terminal is its
pattern if present, else its name; for the concrete grammars below the two
coincide). -/
inductive GSym where
  | t (name : List Char)
  | nt (name : List Char)
deriving DecidableEq

/-- A production rule: origin non-terminal and expansion. -/
structure GRule where
  origin : List Char
  expansion : List GSym
deriving DecidableEq

/-- A grammar together with its prediction map.  Modelled from the spec: the
grammar analyzer (§4.7, an external boundary: `lark.parsers.grammar_analysis`
is not part of the repository sources) supplies, per non-terminal, the list
of expanded rules used by `self.predictions`; here it is given directly as a
map from non-terminal names to rule indices. -/
structure Grammar where
  rules : List GRule
  predictions : List Char → List Nat

/-- An Earley item `(rule, ptr, start)` (`lark.parsers.earley_common.Item`,
modelled from the spec §3: two items are equal iff their `(rule, ptr, start)`
triples match; `advance()` yields the item with `ptr + 1`). -/
structure EItem where
  rule : Nat
  ptr : Nat
  start : Nat
deriving DecidableEq

/-- `item.expect`: the symbol immediately after the dot, if any. -/
def expects (g : Grammar) (it : EItem) : Option GSym :=
  match g.rules[it.rule]? with
  | some r => r.expansion[it.ptr]?
  | none => none

/-- `item.is_complete`: the dot is at the end of the expansion. -/
def isComplete (g : Grammar) (it : EItem) : Bool :=
  match g.rules[it.rule]? with
  | some r => it.ptr == r.expansion.length
  | none => false

/-- `item.advance()`. -/
def advanceItem (it : EItem) : EItem :=
  ⟨it.rule, it.ptr + 1, it.start⟩

/-- Membership of a symbol in `self.TERMINALS` (`alcep.py`, line 60): the
terminal symbols occurring in some rule expansion. -/
def inTerminals (g : Grammar) (s : GSym) : Bool :=
  (match s with
   | .t _ => true
   | .nt _ => false) &&
    g.rules.any fun r => r.expansion.contains s

/-- Membership of a symbol in `self.NON_TERMINALS` (`alcep.py`, line 61). -/
def inNonTerminals (g : Grammar) (s : GSym) : Bool :=
  (match s with
   | .t _ => false
   | .nt _ => true) &&
    g.rules.any fun r => r.expansion.contains s

/-- `item.expect in self.TERMINALS` (`None` is never a member). -/
def expectInTerminals (g : Grammar) (it : EItem) : Bool :=
  match expects g it with
  | some s => inTerminals g s
  | none => false

/-- `item.expect in self.NON_TERMINALS`. -/
def expectInNonTerminals (g : Grammar) (it : EItem) : Bool :=
  match expects g it with
  | some s => inNonTerminals g s
  | none => false

/-- The item-level state of `BaseParser.compute_earley_set` (`alcep.py`,
lines 82-209): the current Earley set (insertion-ordered), the `to_scan`
set, the worklist deque (appended on the right, popped on the right) and the
origins registered in `held_completions`.  Forest-node construction is
omitted: which items and `to_scan` entries are produced depends only on the
`(rule, ptr, start)` triples, never on the node cache. -/
structure ClosureState where
  curr : List EItem
  toScan : List EItem
  queue : List EItem
  held : List (List Char)

/-- The nested `__add_item` of `compute_earley_set` (`alcep.py`, lines
88-101): append the item to the current set and the worklist when it is new,
and add it to `to_scan` whenever its expected symbol is a terminal (this
second step is unconditional in the source). -/
def closureAddItem (g : Grammar) (st : ClosureState) (it : EItem) : ClosureState :=
  let st1 :=
    if st.curr.contains it then st
    else { st with curr := st.curr ++ [it], queue := st.queue ++ [it] }
  if expectInTerminals g it then
    if st1.toScan.contains it then st1
    else { st1 with toScan := st1.toScan ++ [it] }
  else st1

/-- One worklist step of `compute_earley_set` (`alcep.py`, lines 114-209):
the completer for complete items (registering held completions when the item
starts at the current position and advancing all originators), the predictor
for items expecting a non-terminal (including the held-completion shortcut),
and the insertion rule for items expecting a terminal.  `earlier` holds the
Earley sets `0 .. i-1`; originators of a completion starting at `i` are
looked up in the current, still-growing set. -/
def closureStep (g : Grammar) (i : Nat) (earlier : List (List EItem))
    (st : ClosureState) (it : EItem) : ClosureState :=
  if isComplete g it then
    let origin := (Option.map GRule.origin g.rules[it.rule]?).getD []
    let st :=
      if it.start == i then
        if st.held.contains origin then st
        else { st with held := st.held ++ [origin] }
      else st
    let originSet := if it.start == i then st.curr else (earlier[it.start]?).getD []
    let originators := originSet.filter fun o => expects g o == some (.nt origin)
    originators.foldl (fun s o => closureAddItem g s (advanceItem o)) st
  else if expectInNonTerminals g it then
    match expects g it with
    | some (.nt B) =>
      let st := (g.predictions B).foldl (fun s r => closureAddItem g s ⟨r, 0, i⟩) st
      if st.held.contains B then closureAddItem g st (advanceItem it) else st
    | _ => st
  else if expectInTerminals g it then
    closureAddItem g st (advanceItem it)
  else st

/-- The worklist loop of `compute_earley_set`, with explicit fuel bounding
the number of processed worklist entries (the source loop terminates because
the item universe of a grammar is finite; `none` reports exhausted fuel). -/
def closureRun (g : Grammar) (i : Nat) (earlier : List (List EItem)) :
    Nat → ClosureState → Option ClosureState
  | 0, st => if st.queue.isEmpty then some st else none
  | fuel + 1, st =>
    match st.queue.getLast? with
    | none => some st
    | some it =>
      closureRun g i earlier fuel (closureStep g i earlier { st with queue := st.queue.dropLast } it)

/-- `compute_earley_set` (`alcep.py`): run the closure on the current set
`curr` with the given `to_scan` set, returning the grown set and `to_scan`.
-/
def computeEarleySet (g : Grammar) (i : Nat) (earlier : List (List EItem))
    (curr : List EItem) (toScan : List EItem) (fuel : Nat) :
    Option (List EItem × List EItem) :=
  (closureRun g i earlier fuel ⟨curr, toScan, curr, []⟩).map fun st => (st.curr, st.toScan)

/-- The label of a terminal used for insertion and replacement tokens
(`alcep.py`, lines 192-194 and 248-250): the terminal's pattern if it has a
`TerminalDef`, else its name.  Modelled from the spec for the lexer-side
lookup (`lexer_conf.terminals_by_name` is an external boundary); for the
concrete grammars below the label is the terminal's name. -/
def symLabel : GSym → List Char
  | .t n => n
  | .nt n => n

/-- `BaseParser._init_next_earley_set` (`alcep.py`, lines 291-334) at item
level, also recording the edit operations of the token nodes it creates, in
creation order: for every item of `to_scan` the scanner rule
(`ReadOperation(token)`) when `term_matcher(expect, token)` holds, else the
replacement rule (`ReplacementOperation(token, label)`); afterwards, for
every item of the current Earley set, the deletion rule
(`DeletionOperation(token)`, the item keeping its dot). -/
def initNextEarleySet (g : Grammar) (matcher : GSym → List Char → Bool)
    (toScan : List EItem) (curr : List EItem) (token : List Char) :
    List EItem × List EditOp :=
  let addNext (ns : List EItem) (it : EItem) : List EItem :=
    if ns.contains it then ns else ns ++ [it]
  let afterScan := toScan.foldl
    (fun (acc : List EItem × List EditOp) it =>
      match expects g it with
      | some s =>
        if matcher s token then
          (addNext acc.1 (advanceItem it), acc.2 ++ [.read token])
        else
          (addNext acc.1 (advanceItem it), acc.2 ++ [.rep token (symLabel s)])
      | none => acc)
    ([], [])
  curr.foldl
    (fun (acc : List EItem × List EditOp) it =>
      (addNext acc.1 it, acc.2 ++ [.del token]))
    afterScan

/-- The first iteration of the main loop of `BaseParser._parse` (`alcep.py`,
lines 336-378), applied to the initial Earley set and `to_scan` computed by
`BaseParser.parse` (lines 396-413).  Faithful to the source, the loop body
begins with `to_scan = next_to_scan` where `next_to_scan` is the freshly
created empty set (line 352 and 361), so the closure at position 0 starts
from an empty `to_scan`; the `to_scan` built in `parse` is used only for the
lexer call.  Returns the closed first Earley set, the `to_scan` actually
used by the first shift phase, the seeded second Earley set and the edit
operations of the token nodes created by the first shift phase. -/
def alcepFirstStep (g : Grammar) (matcher : GSym → List Char → Bool)
    (startName : List Char) (token : List Char) (fuel : Nat) :
    Option (List EItem × List EItem × List EItem × List EditOp) :=
  let seeds := (g.predictions startName).map fun r => (⟨r, 0, 0⟩ : EItem)
  let e0 := seeds.foldl (fun s it => if s.contains it then s else s ++ [it]) []
  match computeEarleySet g 0 [] e0 [] fuel with
  | none => none
  | some (curr, toScanUsed) =>
    let (next, ops) := initNextEarleySet g matcher toScanUsed curr token
    some (curr, toScanUsed, next, ops)

/-- The `to_scan` set computed by `BaseParser.parse` (`alcep.py`, lines
400-413) before `_parse` is called: the seed items of the initial Earley set
whose expected symbol is a terminal. -/
def alcepInitialToScan (g : Grammar) (startName : List Char) : List EItem :=
  let seeds := (g.predictions startName).map fun r => (⟨r, 0, 0⟩ : EItem)
  seeds.filter (expectInTerminals g)

/-- The deletion edges synthesised by `OptimizedBaseParser.__compute_edges`
for the items of `Q₀` (`oalcep.py`, lines 151-162): for `i in range(n)` an
edge into the node at position `i + 1` whose token node carries
`DeletionOperation(letter=tokens[0])` — the letter is the first input token
at every position. -/
def oalcepQ0DeleteEdges (tokens : List (List Char)) : List (Nat × EditOp) :=
  (List.range tokens.length).map fun i => (i + 1, .del (tokens.headD []))

/-- The deletion token nodes created by ALCEP across a whole parse: the main
loop of `_parse` (`alcep.py`, lines 359-372) passes the current input token
of step `i` to `_init_next_earley_set`, whose deletion rule (lines 266-289
and 331-334) creates `DeletionOperation(letter=token)` nodes at position
`i + 1`. -/
def alcepDeleteEdges (tokens : List (List Char)) : List (Nat × EditOp) :=
  tokens.enum.map fun p => (p.1 + 1, .del p.2)

/-- The token-node branch of `equal_node_without_child`
(`equality_of_correction_sppfs.py`, lines 19-23): two token nodes are equal
iff their tokens are; token equality compares the rendered values, which for
a fixed symbol configuration agree exactly when the operations do. -/
def equalTokenNodes (op1 op2 : EditOp) : Bool :=
  op1 == op2

/-- The input projection of a correction: the letters of its read, deletion
and replacement operations, in order (spec I3). -/
def inputProjection (ops : List EditOp) : List (List Char) :=
  ops.filterMap fun op =>
    match op with
    | .read l => some l
    | .del l => some l
    | .rep l _ => some l
    | .ins _ => none

/-- The grammar `S → a`: one rule whose expansion is the single terminal
`a`.  The prediction map reflects the grammar analyzer contract (§4.7): the
prediction of `S` is its only rule. -/
def grammarSa : Grammar :=
  { rules := [⟨['S'], [.t ['a']]⟩],
    predictions := fun o => if o = ['S'] then [0] else [] }

/-- The basic term matcher for the grammars used here: a token matches a
terminal iff it equals the terminal's name (modelled from the spec:
`term_matcher` is supplied by the surrounding Lark infrastructure). -/
def basicMatcher : GSym → List Char → Bool
  | .t n, tok => n == tok
  | .nt _, _ => false

/-! ### The scattered-subsequence scan computes `List.Sublist` -/

theorem scatterScan_iff_sublist :
    ∀ (ls ss : List Char), ss ≠ [] → (scatterScan ls ss = true ↔ List.Sublist ss ls) := by
  intro ls
  induction ls with
  | nil =>
    intro ss hne
    simp only [scatterScan]
    constructor
    · intro h; cases ss with
      | nil => exact absurd rfl hne
      | cons s t => simp at h
    · intro h
      have := List.sublist_nil.mp h
      exact absurd this hne
  | cons l ls ih =>
    intro ss hne
    cases ss with
    | nil => exact absurd rfl hne
    | cons s t =>
      by_cases hls : l = s
      · subst hls
        cases t with
        | nil =>
          constructor
          · intro _
            exact (List.nil_sublist ls).cons₂ l
          · intro _
            simp [scatterScan]
        | cons s2 t2 =>
          rw [show scatterScan (l :: ls) (l :: s2 :: t2) = scatterScan ls (s2 :: t2) by
            simp [scatterScan]]
          rw [ih (s2 :: t2) (by simp), List.cons_sublist_cons]
      · simp only [scatterScan, if_neg hls]
        rw [ih (s :: t) (by simp)]
        constructor
        · intro h; exact h.cons l
        · intro h
          cases h with
          | cons _ h2 => exact h2
          | cons₂ => exact absurd rfl hls

theorem isScatteredSubsequence_spec (s l : List Char) :
    isScatteredSubsequence s l =
      (if s = l then .equal
       else if List.Sublist s l then .smaller
       else .incomparable) := by
  unfold isScatteredSubsequence
  by_cases hsl : s = l
  · simp [hsl]
  · rw [if_neg hsl, if_neg hsl]
    by_cases hnil : s.length = 0
    · have hs : s = [] := List.length_eq_zero.mp hnil
      subst hs
      simp [List.nil_sublist]
    · rw [if_neg hnil]
      have hne : s ≠ [] := fun h => hnil (by simp [h])
      by_cases hsub : List.Sublist s l
      · rw [if_pos hsub, if_pos ((scatterScan_iff_sublist l s hne).mpr hsub)]
      · rw [if_neg hsub, if_neg ?_]
        intro h
        exact hsub ((scatterScan_iff_sublist l s hne).mp h)

theorem insCompare_spec (u v : List Char) :
    insCompare u v =
      (if u = v then .equal
       else if List.Sublist u v then .smaller
       else if List.Sublist v u then .bigger
       else .incomparable) := by
  unfold insCompare
  by_cases hlen : u.length ≤ v.length
  · rw [if_pos hlen, isScatteredSubsequence_spec]
    by_cases huv : u = v
    · simp [huv]
    · rw [if_neg huv, if_neg huv]
      by_cases hsub : List.Sublist u v
      · rw [if_pos hsub, if_pos hsub]
      · rw [if_neg hsub, if_neg hsub, if_neg ?_]
        intro hvu
        exact huv (hvu.eq_of_length_le hlen).symm
  · rw [if_neg hlen, isScatteredSubsequence_spec]
    have hne : u ≠ v := fun h => hlen (h ▸ le_refl _)
    have hne2 : v ≠ u := fun h => hne h.symm
    have hnsub : ¬List.Sublist u v := fun huv => hlen huv.length_le
    rw [if_neg hne2, if_neg hne, if_neg hnsub]
    by_cases hsub : List.Sublist v u
    · simp only [if_pos hsub]
    · simp only [if_neg hsub]

/-! ### Order-theoretic facts about the edit-operation comparison -/

theorem opCompare_self (x : EditOp) : opCompare x x = .ok .equal := by
  cases x <;> simp [opCompare, insCompare_spec]

theorem opCompare_eq_iff {x y : EditOp} : opCompare x y = .ok .equal ↔ x = y := by
  constructor
  · cases x <;> cases y <;>
      simp only [opCompare, insCompare_spec] <;>
      intro h <;>
      first
      | (split_ifs at h <;> simp_all)
      | simp_all
  · intro h; subst h; exact opCompare_self x

theorem opCompare_smaller_cases {x y : EditOp} (h : opCompare x y = .ok .smaller) :
    (∃ l, x = .read l ∧ y = .del l) ∨
    (∃ l r, x = .read l ∧ y = .rep l r) ∨
    (∃ u v, x = .ins u ∧ y = .ins v ∧ List.Sublist u v ∧ u ≠ v) := by
  cases x <;> cases y <;>
    simp only [opCompare, insCompare_spec] at h <;>
    first
    | (split_ifs at h <;> simp_all)
    | simp_all

theorem opCompare_bigger_cases {x y : EditOp} (h : opCompare x y = .ok .bigger) :
    (∃ l, x = .del l ∧ y = .read l) ∨
    (∃ l r, x = .rep l r ∧ y = .read l) ∨
    (∃ u v, x = .ins u ∧ y = .ins v ∧ List.Sublist v u ∧ u ≠ v) := by
  cases x <;> cases y <;>
    simp only [opCompare, insCompare_spec] at h <;>
    first
    | (split_ifs at h <;> simp_all)
    | simp_all

theorem opCompare_flip {x y : EditOp} :
    opCompare x y = .ok .smaller ↔ opCompare y x = .ok .bigger := by
  constructor
  · intro h
    rcases opCompare_smaller_cases h with ⟨l, hx, hy⟩ | ⟨l, r, hx, hy⟩ | ⟨u, v, hx, hy, hs, hne⟩
    · subst hx; subst hy; simp [opCompare]
    · subst hx; subst hy; simp [opCompare]
    · subst hx; subst hy
      have hnsub : ¬List.Sublist v u := fun h2 => hne (hs.eq_of_length_le h2.length_le)
      have hne2 : v ≠ u := fun h2 => hne h2.symm
      simp [opCompare, insCompare_spec, if_neg hne2, if_neg hnsub, if_pos hs]
  · intro h
    rcases opCompare_bigger_cases h with ⟨l, hx, hy⟩ | ⟨l, r, hx, hy⟩ | ⟨u, v, hx, hy, hs, hne⟩
    · subst hx; subst hy; simp [opCompare]
    · subst hx; subst hy; simp [opCompare]
    · subst hx; subst hy
      have hnsub : ¬List.Sublist u v := fun h2 => hne (h2.eq_of_length_le hs.length_le)
      have hne2 : v ≠ u := fun h2 => hne h2.symm
      simp [opCompare, insCompare_spec, if_neg hne2, if_neg hnsub, if_pos hs]

/-- Pointwise non-strict order on edit operations: equal or strictly
smaller according to the comparison of `edit_operations.py`. -/
def opLE (x y : EditOp) : Prop :=
  opCompare x y = .ok .equal ∨ opCompare x y = .ok .smaller

theorem opLE_refl (x : EditOp) : opLE x x := Or.inl (opCompare_self x)

theorem opLE_trans {x y z : EditOp} (h1 : opLE x y) (h2 : opLE y z) : opLE x z := by
  rcases h1 with h1 | h1
  · rw [opCompare_eq_iff.mp h1]; exact h2
  · rcases h2 with h2 | h2
    · rw [← opCompare_eq_iff.mp h2]; exact Or.inr h1
    · rcases opCompare_smaller_cases h1 with ⟨l, hx, hy⟩ | ⟨l, r, hx, hy⟩ | ⟨u, v, hx, hy, hs, hne⟩
      · subst hy
        rcases opCompare_smaller_cases h2 with ⟨l2, he, _⟩ | ⟨l2, r2, he, _⟩ | ⟨u2, v2, he, _⟩ <;>
          simp_all
      · subst hy
        rcases opCompare_smaller_cases h2 with ⟨l2, he, _⟩ | ⟨l2, r2, he, _⟩ | ⟨u2, v2, he, _⟩ <;>
          simp_all
      · subst hx; subst hy
        rcases opCompare_smaller_cases h2 with ⟨l2, he, _⟩ | ⟨l2, r2, he, _⟩ |
          ⟨u2, v2, he, hz, hs2, hne2⟩
        · simp_all
        · simp_all
        · have huv : v = u2 := by simpa using he
          subst hz
          have hs3 : List.Sublist v v2 := by rwa [← huv] at hs2
          have hsub : List.Sublist u v2 := hs.trans hs3
          right
          have hneuv : u ≠ v2 := by
            intro hEq
            subst hEq
            exact hne (hs.eq_of_length_le hs3.length_le)
          simp [opCompare, insCompare_spec, if_neg hneuv, if_pos hsub]

theorem opLE_antisymm {x y : EditOp} (h1 : opLE x y) (h2 : opLE y x) : x = y := by
  rcases h1 with h1 | h1
  · exact opCompare_eq_iff.mp h1
  · rcases h2 with h2 | h2
    · exact (opCompare_eq_iff.mp h2).symm
    · rcases opCompare_smaller_cases h1 with ⟨l, hx, hy⟩ | ⟨l, r, hx, hy⟩ | ⟨u, v, hx, hy, hs, hne⟩ <;>
        rcases opCompare_smaller_cases h2 with ⟨l2, hy2, hx2⟩ | ⟨l2, r2, hy2, hx2⟩ |
          ⟨u2, v2, hy2, hx2, hs2, hne2⟩ <;>
        simp_all
      exact absurd (hs.eq_of_length_le hs2.length_le) hne

/-! ### Characterization of the correction comparison -/

/-- The pointwise lift of the edit-operation comparison, as the spec words
it (§4.2): `EQUAL` if all positions compare `EQUAL`; `SMALLER` if every
position compares `EQUAL` or `SMALLER` with at least one strict (here: not
all `EQUAL`); `BIGGER` symmetrically; `INCOMPARABLE` otherwise, i.e. as soon
as some position is `INCOMPARABLE` or both a strict `SMALLER` and a strict
`BIGGER` occur. -/
def compareLift (rs : List CompareResult) : CompareResult :=
  if rs.all fun r => r == .equal then .equal
  else if rs.all fun r => r == .equal || r == .smaller then .smaller
  else if rs.all fun r => r == .equal || r == .bigger then .bigger
  else .incomparable

theorem compareFold_ok_equal_iff (pairs : List (EditOp × EditOp)) (cur : CompareResult) :
    compareFold pairs cur = .ok .equal ↔
      cur = .equal ∧ ∀ p ∈ pairs, opCompare p.1 p.2 = .ok .equal := by
  induction pairs generalizing cur with
  | nil => simp [compareFold]
  | cons p rest ih =>
    rcases p with ⟨x, y⟩
    cases hop : opCompare x y with
    | error e =>
      simp [compareFold, hop, List.forall_mem_cons]
    | ok r =>
      cases r <;> cases cur <;>
        simp [compareFold, hop, List.forall_mem_cons, ih]

theorem compareFold_ok_smaller_iff (pairs : List (EditOp × EditOp)) (cur : CompareResult) :
    compareFold pairs cur = .ok .smaller ↔
      (∀ p ∈ pairs, opCompare p.1 p.2 = .ok .equal ∨ opCompare p.1 p.2 = .ok .smaller) ∧
        (cur = .smaller ∨ (cur = .equal ∧ ∃ p ∈ pairs, opCompare p.1 p.2 = .ok .smaller)) := by
  induction pairs generalizing cur with
  | nil => cases cur <;> simp [compareFold]
  | cons p rest ih =>
    rcases p with ⟨x, y⟩
    cases hop : opCompare x y with
    | error e =>
      simp [compareFold, hop, List.forall_mem_cons]
    | ok r =>
      cases r <;> cases cur <;>
        simp [compareFold, hop, List.forall_mem_cons, ih]

theorem compareFold_ok_bigger_iff (pairs : List (EditOp × EditOp)) (cur : CompareResult) :
    compareFold pairs cur = .ok .bigger ↔
      (∀ p ∈ pairs, opCompare p.1 p.2 = .ok .equal ∨ opCompare p.1 p.2 = .ok .bigger) ∧
        (cur = .bigger ∨ (cur = .equal ∧ ∃ p ∈ pairs, opCompare p.1 p.2 = .ok .bigger)) := by
  induction pairs generalizing cur with
  | nil => cases cur <;> simp [compareFold]
  | cons p rest ih =>
    rcases p with ⟨x, y⟩
    cases hop : opCompare x y with
    | error e =>
      simp [compareFold, hop, List.forall_mem_cons]
    | ok r =>
      cases r <;> cases cur <;>
        simp [compareFold, hop, List.forall_mem_cons, ih]

/-- Lists of the same length whose zipped pairs agree componentwise are
equal. -/
theorem eq_of_zip_eq :
    ∀ (a b : List EditOp), a.length = b.length → (∀ p ∈ a.zip b, p.1 = p.2) → a = b := by
  intro a
  induction a with
  | nil => intro b hl _; cases b <;> simp_all
  | cons x t ih =>
    intro b hl h
    cases b with
    | nil => simp at hl
    | cons y s =>
      have hxy : x = y := h (x, y) (by simp [List.zip_cons_cons])
      have ht : t = s := by
        refine ih s (by simpa using hl) fun p hp => h p ?_
        simp [List.zip_cons_cons, hp]
      rw [hxy, ht]

/-- Every pair of `a.zip a` has equal components. -/
theorem zip_self_eq : ∀ (a : List EditOp) (p : EditOp × EditOp), p ∈ a.zip a → p.1 = p.2 := by
  intro a
  induction a with
  | nil => simp
  | cons x t ih =>
    intro p hp
    rcases (by simpa [List.zip_cons_cons] using hp : p = (x, x) ∨ p ∈ t.zip t) with h | h
    · simp [h]
    · exact ih p h

/-- Two different lists of equal length have a differing zipped pair. -/
theorem exists_zip_ne_of_ne :
    ∀ (a b : List EditOp), a.length = b.length → a ≠ b → ∃ p ∈ a.zip b, p.1 ≠ p.2 := by
  intro a
  induction a with
  | nil => intro b hl hne; cases b <;> simp_all
  | cons x t ih =>
    intro b hl hne
    cases b with
    | nil => simp at hl
    | cons y s =>
      by_cases hxy : x = y
      · subst hxy
        have hts : t ≠ s := fun h => hne (by rw [h])
        obtain ⟨p, hp, hne2⟩ := ih s (by simpa using hl) hts
        exact ⟨p, by simp [List.zip_cons_cons, hp], hne2⟩
      · exact ⟨(x, y), by simp [List.zip_cons_cons], hxy⟩

/-- Membership in a zip is symmetric under swapping both lists and the
pair. -/
theorem mem_zip_swap :
    ∀ (a b : List EditOp) (x y : EditOp), (x, y) ∈ a.zip b → (y, x) ∈ b.zip a := by
  intro a
  induction a with
  | nil => simp
  | cons u t ih =>
    intro b x y h
    cases b with
    | nil => simp at h
    | cons v s =>
      rcases (by simpa [List.zip_cons_cons] using h : (x = u ∧ y = v) ∨ (x, y) ∈ t.zip s) with
        ⟨h1, h2⟩ | h2
      · simp [List.zip_cons_cons, h1, h2]
      · simpa [List.zip_cons_cons] using Or.inr (ih s x y h2)

/-- Given three lists with matching lengths, every pair of the outer zip
factors through the middle list. -/
theorem zip_through_middle :
    ∀ (a b c : List EditOp), a.length = b.length → b.length = c.length →
      ∀ p ∈ a.zip c, ∃ y, (p.1, y) ∈ a.zip b ∧ (y, p.2) ∈ b.zip c := by
  intro a
  induction a with
  | nil => simp
  | cons x t ih =>
    intro b c hab hbc p hp
    cases b with
    | nil => simp at hab
    | cons y s =>
      cases c with
      | nil => simp at hbc
      | cons z u =>
        rcases (by simpa [List.zip_cons_cons] using hp : p = (x, z) ∨ p ∈ t.zip u) with h | h
        · subst h
          exact ⟨y, by simp [List.zip_cons_cons], by simp [List.zip_cons_cons]⟩
        · obtain ⟨y2, h1, h2⟩ := ih s u (by simpa using hab) (by simpa using hbc) p h
          exact ⟨y2, by simp [List.zip_cons_cons, h1], by simp [List.zip_cons_cons, h2]⟩

theorem compareCorr_ok_equal_iff {a b : List EditOp} :
    compareCorr a b = .ok .equal ↔ a = b := by
  unfold compareCorr
  by_cases hl : a.length = b.length
  · rw [if_pos hl, compareFold_ok_equal_iff]
    constructor
    · rintro ⟨-, h⟩
      exact eq_of_zip_eq a b hl fun p hp => opCompare_eq_iff.mp (h p hp)
    · intro h
      subst h
      exact ⟨rfl, fun p hp => opCompare_eq_iff.mpr (zip_self_eq a p hp)⟩
  · rw [if_neg hl]
    constructor
    · intro h; cases h
    · intro h; subst h; exact absurd rfl hl

theorem compareCorr_ok_smaller_iff {a b : List EditOp} :
    compareCorr a b = .ok .smaller ↔
      a.length = b.length ∧ (∀ p ∈ a.zip b, opLE p.1 p.2) ∧ a ≠ b := by
  unfold compareCorr
  by_cases hl : a.length = b.length
  · rw [if_pos hl, compareFold_ok_smaller_iff]
    simp only [opLE]
    constructor
    · rintro ⟨hall, hstrict⟩
      refine ⟨hl, hall, ?_⟩
      rcases hstrict with h | ⟨-, p, hp, hsm⟩
      · cases h
      · intro hab
        subst hab
        rw [opCompare_eq_iff.mpr (zip_self_eq a p hp)] at hsm
        cases hsm
    · rintro ⟨-, hall, hne⟩
      refine ⟨hall, Or.inr ⟨by trivial, ?_⟩⟩
      obtain ⟨p, hp, hpne⟩ := exists_zip_ne_of_ne a b hl hne
      refine ⟨p, hp, ?_⟩
      rcases hall p hp with h | h
      · exact absurd (opCompare_eq_iff.mp h) hpne
      · exact h
  · rw [if_neg hl]
    constructor
    · intro h; cases h
    · rintro ⟨h, -, -⟩; exact absurd h hl

theorem compareCorr_ok_bigger_iff {a b : List EditOp} :
    compareCorr a b = .ok .bigger ↔
      a.length = b.length ∧ (∀ p ∈ a.zip b, opLE p.2 p.1) ∧ a ≠ b := by
  unfold compareCorr
  by_cases hl : a.length = b.length
  · rw [if_pos hl, compareFold_ok_bigger_iff]
    have hconv : ∀ p : EditOp × EditOp,
        (opCompare p.1 p.2 = .ok .equal ∨ opCompare p.1 p.2 = .ok .bigger) ↔ opLE p.2 p.1 := by
      intro p
      unfold opLE
      constructor
      · rintro (h | h)
        · exact Or.inl (opCompare_eq_iff.mpr (opCompare_eq_iff.mp h).symm)
        · exact Or.inr (opCompare_flip.mpr h)
      · rintro (h | h)
        · exact Or.inl (opCompare_eq_iff.mpr (opCompare_eq_iff.mp h).symm)
        · exact Or.inr (opCompare_flip.mp h)
    constructor
    · rintro ⟨hall, hstrict⟩
      refine ⟨hl, fun p hp => (hconv p).mp (hall p hp), ?_⟩
      rcases hstrict with h | ⟨-, p, hp, hbg⟩
      · cases h
      · intro hab
        subst hab
        rw [opCompare_eq_iff.mpr (zip_self_eq a p hp)] at hbg
        cases hbg
    · rintro ⟨-, hall, hne⟩
      refine ⟨fun p hp => (hconv p).mpr (hall p hp), Or.inr ⟨by trivial, ?_⟩⟩
      obtain ⟨p, hp, hpne⟩ := exists_zip_ne_of_ne a b hl hne
      refine ⟨p, hp, ?_⟩
      rcases hall p hp with h | h
      · exact absurd (opCompare_eq_iff.mp h).symm hpne
      · exact opCompare_flip.mp h
  · rw [if_neg hl]
    constructor
    · intro h; cases h
    · rintro ⟨h, -, -⟩; exact absurd h hl

theorem compareCorr_self (a : List EditOp) : compareCorr a a = .ok .equal :=
  compareCorr_ok_equal_iff.mpr rfl

theorem compareCorr_flip {a b : List EditOp} :
    compareCorr a b = .ok .bigger ↔ compareCorr b a = .ok .smaller := by
  rw [compareCorr_ok_bigger_iff, compareCorr_ok_smaller_iff]
  constructor
  · rintro ⟨hl, hall, hne⟩
    refine ⟨hl.symm, ?_, fun h => hne h.symm⟩
    rintro ⟨x, y⟩ hp
    exact hall (y, x) (mem_zip_swap b a x y hp)
  · rintro ⟨hl, hall, hne⟩
    refine ⟨hl.symm, ?_, fun h => hne h.symm⟩
    rintro ⟨x, y⟩ hp
    exact hall (y, x) (mem_zip_swap a b x y hp)

theorem compareCorr_trans {a b c : List EditOp}
    (h1 : compareCorr a b = .ok .smaller) (h2 : compareCorr b c = .ok .smaller) :
    compareCorr a c = .ok .smaller := by
  rw [compareCorr_ok_smaller_iff] at h1 h2 ⊢
  obtain ⟨hl1, hall1, hne1⟩ := h1
  obtain ⟨hl2, hall2, hne2⟩ := h2
  refine ⟨hl1.trans hl2, ?_, ?_⟩
  · intro p hp
    obtain ⟨y, hy1, hy2⟩ := zip_through_middle a b c hl1 hl2 p hp
    exact opLE_trans (hall1 (p.1, y) hy1) (hall2 (y, p.2) hy2)
  · intro hac
    subst hac
    have hba : ∀ p ∈ a.zip b, opLE p.2 p.1 := by
      rintro ⟨x, y⟩ hp
      exact hall2 (y, x) (mem_zip_swap a b x y hp)
    exact hne1 (eq_of_zip_eq a b hl1 fun p hp => opLE_antisymm (hall1 p hp) (hba p hp))

/-! ### Correctness of the smallest-corrections filter -/

theorem smallestInnerScan_total {c1 : List EditOp} :
    ∀ (rest : List (Nat × List EditOp)) (poss : Finset Nat),
      (∀ p ∈ rest, ∃ r, compareCorr c1 p.2 = .ok r) →
      ∃ q, smallestInnerScan c1 rest poss = .ok q := by
  intro rest
  induction rest with
  | nil => intro poss _; exact ⟨(poss, true), rfl⟩
  | cons p rest ih =>
    rcases p with ⟨j, c2⟩
    intro poss h
    obtain ⟨r, hr⟩ := h (j, c2) (by simp)
    have hrest : ∀ q ∈ rest, ∃ s, compareCorr c1 q.2 = .ok s :=
      fun q hq => h q (by simp [hq])
    cases r with
    | smaller =>
      obtain ⟨q, hq⟩ := ih (poss.erase j) hrest
      exact ⟨q, by simp [smallestInnerScan, hr, hq]⟩
    | bigger => exact ⟨(poss, false), by simp [smallestInnerScan, hr]⟩
    | equal =>
      obtain ⟨q, hq⟩ := ih poss hrest
      exact ⟨q, by simp [smallestInnerScan, hr, hq]⟩
    | incomparable =>
      obtain ⟨q, hq⟩ := ih poss hrest
      exact ⟨q, by simp [smallestInnerScan, hr, hq]⟩

theorem smallestInnerScan_subset {c1 : List EditOp} :
    ∀ (rest : List (Nat × List EditOp)) (poss poss2 : Finset Nat) (b : Bool),
      smallestInnerScan c1 rest poss = .ok (poss2, b) → poss2 ⊆ poss := by
  intro rest
  induction rest with
  | nil =>
    intro poss poss2 b h
    simp only [smallestInnerScan] at h
    cases h
    exact Finset.Subset.refl _
  | cons p rest ih =>
    rcases p with ⟨j, c2⟩
    intro poss poss2 b h
    simp only [smallestInnerScan] at h
    cases hr : compareCorr c1 c2 with
    | error e => rw [hr] at h; cases h
    | ok r =>
      rw [hr] at h
      cases r with
      | smaller => exact Finset.Subset.trans (ih _ _ _ h) (Finset.erase_subset _ _)
      | bigger => cases h; exact Finset.Subset.refl _
      | equal => exact ih _ _ _ h
      | incomparable => exact ih _ _ _ h

theorem smallestInnerScan_removed {c1 : List EditOp} :
    ∀ (rest : List (Nat × List EditOp)) (poss poss2 : Finset Nat) (b : Bool),
      smallestInnerScan c1 rest poss = .ok (poss2, b) →
      ∀ j ∈ poss, j ∉ poss2 →
        ∃ p ∈ rest, p.1 = j ∧ compareCorr c1 p.2 = .ok .smaller := by
  intro rest
  induction rest with
  | nil =>
    intro poss poss2 b h j hj hj2
    simp only [smallestInnerScan] at h
    cases h
    exact absurd hj hj2
  | cons p rest ih =>
    rcases p with ⟨k, c2⟩
    intro poss poss2 b h j hj hj2
    simp only [smallestInnerScan] at h
    cases hr : compareCorr c1 c2 with
    | error e => rw [hr] at h; cases h
    | ok r =>
      rw [hr] at h
      cases r with
      | smaller =>
        by_cases hjk : j = k
        · exact ⟨(k, c2), by simp, hjk.symm ▸ rfl, hr⟩
        · obtain ⟨p, hp, h1, h2⟩ :=
            ih _ _ _ h j (Finset.mem_erase.mpr ⟨hjk, hj⟩) hj2
          exact ⟨p, by simp [hp], h1, h2⟩
      | bigger => cases h; exact absurd hj hj2
      | equal =>
        obtain ⟨p, hp, h1, h2⟩ := ih _ _ _ h j hj hj2
        exact ⟨p, by simp [hp], h1, h2⟩
      | incomparable =>
        obtain ⟨p, hp, h1, h2⟩ := ih _ _ _ h j hj hj2
        exact ⟨p, by simp [hp], h1, h2⟩

theorem smallestInnerScan_false {c1 : List EditOp} :
    ∀ (rest : List (Nat × List EditOp)) (poss poss2 : Finset Nat),
      smallestInnerScan c1 rest poss = .ok (poss2, false) →
      ∃ p ∈ rest, compareCorr c1 p.2 = .ok .bigger := by
  intro rest
  induction rest with
  | nil =>
    intro poss poss2 h
    simp only [smallestInnerScan] at h
    cases h
  | cons p rest ih =>
    rcases p with ⟨k, c2⟩
    intro poss poss2 h
    simp only [smallestInnerScan] at h
    cases hr : compareCorr c1 c2 with
    | error e => rw [hr] at h; cases h
    | ok r =>
      rw [hr] at h
      cases r with
      | smaller =>
        obtain ⟨p, hp, h2⟩ := ih _ _ h
        exact ⟨p, by simp [hp], h2⟩
      | bigger => exact ⟨(k, c2), by simp, hr⟩
      | equal =>
        obtain ⟨p, hp, h2⟩ := ih _ _ h
        exact ⟨p, by simp [hp], h2⟩
      | incomparable =>
        obtain ⟨p, hp, h2⟩ := ih _ _ h
        exact ⟨p, by simp [hp], h2⟩

theorem smallestInnerScan_true_nobigger {c1 : List EditOp} :
    ∀ (rest : List (Nat × List EditOp)) (poss poss2 : Finset Nat),
      smallestInnerScan c1 rest poss = .ok (poss2, true) →
      ∀ p ∈ rest, compareCorr c1 p.2 ≠ .ok .bigger := by
  intro rest
  induction rest with
  | nil => simp
  | cons p rest ih =>
    rcases p with ⟨k, c2⟩
    intro poss poss2 h q hq
    simp only [smallestInnerScan] at h
    cases hr : compareCorr c1 c2 with
    | error e => rw [hr] at h; cases h
    | ok r =>
      rw [hr] at h
      rcases (by simpa using hq : q = (k, c2) ∨ q ∈ rest) with hq2 | hq2
      · subst hq2
        cases r with
        | smaller => simp [hr]
        | bigger => cases h
        | equal => simp [hr]
        | incomparable => simp [hr]
      · cases r with
        | smaller => exact ih _ _ h q hq2
        | bigger => cases h
        | equal => exact ih _ _ h q hq2
        | incomparable => exact ih _ _ h q hq2

theorem smallestInnerScan_true_erases {c1 : List EditOp} :
    ∀ (rest : List (Nat × List EditOp)) (poss poss2 : Finset Nat),
      smallestInnerScan c1 rest poss = .ok (poss2, true) →
      ∀ p ∈ rest, compareCorr c1 p.2 = .ok .smaller → p.1 ∉ poss2 := by
  intro rest
  induction rest with
  | nil => simp
  | cons p rest ih =>
    rcases p with ⟨k, c2⟩
    intro poss poss2 h q hq hsm
    simp only [smallestInnerScan] at h
    cases hr : compareCorr c1 c2 with
    | error e => rw [hr] at h; cases h
    | ok r =>
      rw [hr] at h
      rcases (by simpa using hq : q = (k, c2) ∨ q ∈ rest) with hq2 | hq2
      · subst hq2
        cases r with
        | smaller =>
          intro hmem
          have h2 : k ∈ poss.erase k := smallestInnerScan_subset _ _ _ _ h hmem
          exact absurd h2 (Finset.not_mem_erase _ _)
        | bigger => cases h
        | equal => rw [hr] at hsm; cases hsm
        | incomparable => rw [hr] at hsm; cases hsm
      · cases r with
        | smaller => exact ih _ _ h q hq2 hsm
        | bigger => cases h
        | equal => exact ih _ _ h q hq2 hsm
        | incomparable => exact ih _ _ h q hq2 hsm

/-- Decidable equality for comparison outcomes, used to filter index sets. -/
instance : DecidableEq (Except String CompareResult) := fun a b =>
  match a, b with
  | .ok x, .ok y =>
    if h : x = y then isTrue (by rw [h]) else isFalse (by intro h2; cases h2; exact h rfl)
  | .error x, .error y =>
    if h : x = y then isTrue (by rw [h]) else isFalse (by intro h2; cases h2; exact h rfl)
  | .ok _, .error _ => isFalse (by intro h; cases h)
  | .error _, .ok _ => isFalse (by intro h; cases h)

/-- Irreflexivity of the strict comparison: a correction never compares
`SMALLER` with itself. -/
theorem compareCorr_self_ne_smaller (c : List EditOp) :
    compareCorr c c ≠ .ok .smaller := by
  rw [compareCorr_self]
  intro h
  cases h

/-- Among the indices whose correction is strictly smaller than `c`, there is
one that is minimal: no index is strictly smaller than it.  (The strict
comparison is transitive and irreflexive, and index sets are finite.) -/
theorem exists_minimal_smaller (n : Nat) (val : Nat → List EditOp) :
    ∀ (m : Nat) (c : List EditOp),
      ((Finset.range n).filter fun k => compareCorr (val k) c = Except.ok CompareResult.smaller).card ≤ m →
      (∃ k, k < n ∧ compareCorr (val k) c = .ok .smaller) →
      ∃ w, w < n ∧ compareCorr (val w) c = .ok .smaller ∧
        ∀ u, u < n → compareCorr (val u) (val w) ≠ .ok .smaller := by
  intro m
  induction m with
  | zero =>
    rintro c hcard ⟨k, hk, hsm⟩
    have hmem : k ∈ (Finset.range n).filter fun k => compareCorr (val k) c = Except.ok CompareResult.smaller := by
      simp [Finset.mem_filter, Finset.mem_range, hk, hsm]
    have : 0 < ((Finset.range n).filter
        fun k => compareCorr (val k) c = Except.ok CompareResult.smaller).card :=
      Finset.card_pos.mpr ⟨k, hmem⟩
    omega
  | succ m ih =>
    rintro c hcard ⟨k, hk, hsm⟩
    by_cases hmin : ∀ u, u < n → compareCorr (val u) (val k) ≠ .ok .smaller
    · exact ⟨k, hk, hsm, hmin⟩
    · push_neg at hmin
      obtain ⟨u, hu, husm⟩ := hmin
      have hsubset :
          ((Finset.range n).filter fun j => compareCorr (val j) (val k) = Except.ok CompareResult.smaller) ⊆
            ((Finset.range n).filter fun j => compareCorr (val j) c = Except.ok CompareResult.smaller).erase k := by
        intro j hj
        rw [Finset.mem_filter, Finset.mem_range] at hj
        obtain ⟨hjn, hjsm⟩ := hj
        rw [Finset.mem_erase, Finset.mem_filter, Finset.mem_range]
        refine ⟨?_, hjn, compareCorr_trans hjsm hsm⟩
        intro hEq
        subst hEq
        exact compareCorr_self_ne_smaller (val j) hjsm
      have hksm : k ∈ (Finset.range n).filter
          fun j => compareCorr (val j) c = Except.ok CompareResult.smaller := by
        simp [Finset.mem_filter, Finset.mem_range, hk, hsm]
      have hcard2 :
          ((Finset.range n).filter
            fun j => compareCorr (val j) (val k) = Except.ok CompareResult.smaller).card ≤ m := by
        have h1 := Finset.card_le_card hsubset
        have h2 := Finset.card_erase_of_mem hksm
        omega
      obtain ⟨w, hw, hwsm, hwmin⟩ := ih (val k) hcard2 ⟨u, hu, husm⟩
      exact ⟨w, hw, compareCorr_trans hwsm hsm, hwmin⟩

/-- The full characterization of the outer loop of
`__compute_smallest_corrections`, by induction over the remaining list
snapshot.  `val` assigns to every index its correction; the invariants are:
every pair carries its own value, every possible index is in range, every
removed index has some strictly smaller competitor, and for every pending
index still possible, any minimal strictly-smaller competitor is itself still
pending.  The loop then returns exactly the already-collected results plus
the pending, still-possible elements with no strictly smaller competitor. -/
theorem smallestOuterLoop_char (n : Nat) (val : Nat → List EditOp)
    (hdefG : ∀ i j, i < n → j < n → ∃ r, compareCorr (val i) (val j) = .ok r) :
    ∀ (rest : List (Nat × List EditOp)) (poss : Finset Nat) (res : List (List EditOp)),
      (∀ p ∈ rest, p.1 < n ∧ p.2 = val p.1) →
      (∀ j ∈ poss, j < n) →
      (∀ j, j < n → j ∉ poss → ∃ k, k < n ∧ compareCorr (val k) (val j) = .ok .smaller) →
      (∀ p ∈ rest, p.1 ∈ poss →
        ∀ w, w < n → compareCorr (val w) (val p.1) = .ok .smaller →
          (∀ u, u < n → compareCorr (val u) (val w) ≠ .ok .smaller) →
          ∃ q ∈ rest, q.1 = w) →
      ∃ L, smallestOuterLoop rest poss res = .ok L ∧
        ∀ c, c ∈ L ↔ (c ∈ res ∨ ∃ p ∈ rest, p.2 = c ∧ p.1 ∈ poss ∧
          ¬∃ k, k < n ∧ compareCorr (val k) c = .ok .smaller) := by
  intro rest
  induction rest with
  | nil =>
    intro poss res _ _ _ _
    exact ⟨res, rfl, fun c => by simp⟩
  | cons hd tail ih =>
    rcases hd with ⟨i, c1⟩
    intro poss res hvr hposs hI1 hIC
    obtain ⟨hi0, hc10⟩ := hvr (i, c1) (by simp)
    have hi : i < n := hi0
    have hc1 : c1 = val i := hc10
    by_cases hip : i ∈ poss
    · -- the element is still possible: run the inner scan
      have hscan_total : ∀ p ∈ tail, ∃ r, compareCorr c1 p.2 = .ok r := by
        intro p hp
        obtain ⟨hpn, hpv⟩ := hvr p (by simp [hp])
        rw [hc1, hpv]
        exact hdefG i p.1 hi hpn
      obtain ⟨⟨poss2, b⟩, hscan⟩ := smallestInnerScan_total tail poss hscan_total
      have hsub2 : poss2 ⊆ poss := smallestInnerScan_subset tail poss poss2 b hscan
      cases b with
      | true =>
        -- the scan found nothing strictly smaller among the later elements:
        -- the element has no strictly smaller competitor at all
        have hnw : ¬∃ k, k < n ∧ compareCorr (val k) c1 = .ok .smaller := by
          rintro ⟨k, hk, hksm⟩
          obtain ⟨w, hw, hwsm, hwmin⟩ :=
            exists_minimal_smaller n val
              ((Finset.range n).filter
                fun j => compareCorr (val j) c1 = Except.ok CompareResult.smaller).card c1 (le_refl _)
              ⟨k, hk, hksm⟩
          obtain ⟨q, hq, hq1⟩ := hIC (i, c1) (by simp) hip w hw (hc1 ▸ hwsm) hwmin
          rcases (by simpa using hq : q = (i, c1) ∨ q ∈ tail) with hq2 | hq2
          · have hiw : i = w := by rw [hq2] at hq1; exact hq1
            rw [← hiw, ← hc1] at hwsm
            exact compareCorr_self_ne_smaller c1 hwsm
          · obtain ⟨hqn, hqv⟩ := hvr q (by simp [hq2])
            have hbg : compareCorr c1 q.2 = .ok .bigger := by
              rw [hqv, hq1]
              exact compareCorr_flip.mpr hwsm
            exact smallestInnerScan_true_nobigger tail poss poss2 hscan q hq2 hbg
        have hrec : smallestOuterLoop ((i, c1) :: tail) poss res =
            smallestOuterLoop tail poss2 (res ++ [c1]) := by
          simp [smallestOuterLoop, hip, hscan]
        obtain ⟨L, hL, hchar⟩ := ih poss2 (res ++ [c1])
          (fun p hp => hvr p (by simp [hp]))
          (fun j hj => hposs j (hsub2 hj))
          (by
            intro j hj hj2
            by_cases hjposs : j ∈ poss
            · obtain ⟨p, hp, hp1, hpsm⟩ :=
                smallestInnerScan_removed tail poss poss2 true hscan j hjposs hj2
              obtain ⟨hpn, hpv⟩ := hvr p (by simp [hp])
              refine ⟨i, hi, ?_⟩
              rw [← hc1, ← hp1, ← hpv]
              exact hpsm
            · exact hI1 j hj hjposs)
          (by
            intro p hp hp2 w hw hwsm hwmin
            obtain ⟨q, hq, hq1⟩ := hIC p (by simp [hp]) (hsub2 hp2) w hw hwsm hwmin
            rcases (by simpa using hq : q = (i, c1) ∨ q ∈ tail) with hq2 | hq2
            · exfalso
              have hiw : i = w := by rw [hq2] at hq1; exact hq1
              obtain ⟨hpn, hpv⟩ := hvr p (by simp [hp])
              have hsm : compareCorr c1 p.2 = .ok .smaller := by
                rw [hc1, hpv, hiw]
                exact hwsm
              exact smallestInnerScan_true_erases tail poss poss2 hscan p hp hsm hp2
            · exact ⟨q, hq2, hq1⟩)
        refine ⟨L, hrec ▸ hL, ?_⟩
        intro c
        rw [hchar c]
        constructor
        · rintro (hres | ⟨p, hp, hpc, hpposs, hpnw⟩)
          · rcases List.mem_append.mp hres with h | h
            · exact Or.inl h
            · right
              have hcc1 : c = c1 := by simpa using h
              refine ⟨(i, c1), by simp, hcc1.symm, hip, ?_⟩
              rw [hcc1]
              exact hnw
          · right
            exact ⟨p, by simp [hp], hpc, hsub2 hpposs, hpnw⟩
        · rintro (hres | ⟨p, hp, hpc, hpposs, hpnw⟩)
          · exact Or.inl (List.mem_append.mpr (Or.inl hres))
          · rcases (by simpa using hp : p = (i, c1) ∨ p ∈ tail) with hp2 | hp2
            · left
              apply List.mem_append.mpr
              right
              have hcc : c1 = c := by rw [hp2] at hpc; exact hpc
              simp [← hcc]
            · right
              refine ⟨p, hp2, hpc, ?_, hpnw⟩
              by_contra hnot
              obtain ⟨q, hq, hq1, hqsm⟩ :=
                smallestInnerScan_removed tail poss poss2 true hscan p.1 hpposs hnot
              obtain ⟨hqn, hqv⟩ := hvr q (by simp [hq])
              obtain ⟨hpn, hpv⟩ := hvr p (by simp [hp2])
              apply hpnw
              have hq2c : q.2 = c := by rw [hqv, hq1, ← hpv, hpc]
              refine ⟨i, hi, ?_⟩
              rw [← hc1, ← hq2c]
              exact hqsm
      | false =>
        -- the scan found a strictly smaller later element: the element is
        -- removed and not collected
        obtain ⟨p0, hp0, hp0bg⟩ := smallestInnerScan_false tail poss poss2 hscan
        obtain ⟨hp0n, hp0v⟩ := hvr p0 (by simp [hp0])
        have hwit : ∃ k, k < n ∧ compareCorr (val k) c1 = .ok .smaller := by
          refine ⟨p0.1, hp0n, ?_⟩
          have hflip := compareCorr_flip.mp hp0bg
          rwa [hp0v] at hflip
        have hrec : smallestOuterLoop ((i, c1) :: tail) poss res =
            smallestOuterLoop tail (poss2.erase i) res := by
          simp [smallestOuterLoop, hip, hscan]
        obtain ⟨L, hL, hchar⟩ := ih (poss2.erase i) res
          (fun p hp => hvr p (by simp [hp]))
          (fun j hj => hposs j (hsub2 (Finset.mem_of_mem_erase hj)))
          (by
            intro j hj hj2
            by_cases hji : j = i
            · subst hji
              obtain ⟨k, hk, hksm⟩ := hwit
              refine ⟨k, hk, ?_⟩
              rwa [hc1] at hksm
            · by_cases hjposs : j ∈ poss
              · have hj3 : j ∉ poss2 := fun hmem => hj2 (Finset.mem_erase.mpr ⟨hji, hmem⟩)
                obtain ⟨p, hp, hp1, hpsm⟩ :=
                  smallestInnerScan_removed tail poss poss2 false hscan j hjposs hj3
                obtain ⟨hpn, hpv⟩ := hvr p (by simp [hp])
                refine ⟨i, hi, ?_⟩
                rw [← hc1, ← hp1, ← hpv]
                exact hpsm
              · exact hI1 j hj hjposs)
          (by
            intro p hp hp2 w hw hwsm hwmin
            obtain ⟨q, hq, hq1⟩ := hIC p (by simp [hp])
              (hsub2 (Finset.mem_of_mem_erase hp2)) w hw hwsm hwmin
            rcases (by simpa using hq : q = (i, c1) ∨ q ∈ tail) with hq2 | hq2
            · exfalso
              have hiw : i = w := by rw [hq2] at hq1; exact hq1
              obtain ⟨k, hk, hksm⟩ := hwit
              apply hwmin k hk
              rw [← hiw]
              rwa [hc1] at hksm
            · exact ⟨q, hq2, hq1⟩)
        refine ⟨L, hrec ▸ hL, ?_⟩
        intro c
        rw [hchar c]
        constructor
        · rintro (hres | ⟨p, hp, hpc, hpposs, hpnw⟩)
          · exact Or.inl hres
          · exact Or.inr ⟨p, by simp [hp], hpc,
              hsub2 (Finset.mem_of_mem_erase hpposs), hpnw⟩
        · rintro (hres | ⟨p, hp, hpc, hpposs, hpnw⟩)
          · exact Or.inl hres
          · rcases (by simpa using hp : p = (i, c1) ∨ p ∈ tail) with hp2 | hp2
            · exfalso
              have hcc : c1 = c := by rw [hp2] at hpc; exact hpc
              apply hpnw
              obtain ⟨k, hk, hksm⟩ := hwit
              refine ⟨k, hk, ?_⟩
              rwa [hcc] at hksm
            · obtain ⟨hpn, hpv⟩ := hvr p (by simp [hp2])
              refine Or.inr ⟨p, hp2, hpc, ?_, hpnw⟩
              have hp1i : p.1 ≠ i := by
                intro hEq
                apply hpnw
                obtain ⟨k, hk, hksm⟩ := hwit
                have hcc1 : c = c1 := by rw [← hpc, hpv, hEq, ← hc1]
                refine ⟨k, hk, ?_⟩
                rwa [← hcc1] at hksm
              have hp1poss2 : p.1 ∈ poss2 := by
                by_contra hno
                obtain ⟨q, hq, hq1, hqsm⟩ :=
                  smallestInnerScan_removed tail poss poss2 false hscan p.1 hpposs hno
                obtain ⟨hqn, hqv⟩ := hvr q (by simp [hq])
                apply hpnw
                have hq2c : q.2 = c := by rw [hqv, hq1, ← hpv, hpc]
                refine ⟨i, hi, ?_⟩
                rw [← hc1, ← hq2c]
                exact hqsm
              exact Finset.mem_erase.mpr ⟨hp1i, hp1poss2⟩
    · -- the element was already removed: it is skipped
      have hrec : smallestOuterLoop ((i, c1) :: tail) poss res =
          smallestOuterLoop tail poss res := by
        simp [smallestOuterLoop, hip]
      obtain ⟨L, hL, hchar⟩ := ih poss res
        (fun p hp => hvr p (by simp [hp]))
        hposs
        hI1
        (by
          intro p hp hp2 w hw hwsm hwmin
          obtain ⟨q, hq, hq1⟩ := hIC p (by simp [hp]) hp2 w hw hwsm hwmin
          rcases (by simpa using hq : q = (i, c1) ∨ q ∈ tail) with hq2 | hq2
          · exfalso
            have hiw : i = w := by rw [hq2] at hq1; exact hq1
            obtain ⟨k, hk, hksm⟩ := hI1 w hw (hiw ▸ hip)
            exact hwmin k hk hksm
          · exact ⟨q, hq2, hq1⟩)
      refine ⟨L, hrec ▸ hL, ?_⟩
      intro c
      rw [hchar c]
      constructor
      · rintro (hres | ⟨p, hp, hpc, hpposs, hpnw⟩)
        · exact Or.inl hres
        · exact Or.inr ⟨p, by simp [hp], hpc, hpposs, hpnw⟩
      · rintro (hres | ⟨p, hp, hpc, hpposs, hpnw⟩)
        · exact Or.inl hres
        · rcases (by simpa using hp : p = (i, c1) ∨ p ∈ tail) with hp2 | hp2
          · exfalso
            have hip2 : i ∈ poss := by rw [hp2] at hpposs; exact hpposs
            exact hip hip2
          · exact Or.inr ⟨p, hp2, hpc, hpposs, hpnw⟩

/-! ### Totality of the comparison on word-ordered corrections -/

theorem opCompare_isOk_of_isIns_eq {x y : EditOp} (h : x.isIns = y.isIns) :
    ∃ r, opCompare x y = .ok r := by
  cases x <;> cases y <;>
    first
    | exact ⟨_, rfl⟩
    | simp [EditOp.isIns] at h

theorem compareFold_total :
    ∀ (pairs : List (EditOp × EditOp)) (cur : CompareResult),
      (∀ p ∈ pairs, ∃ r, opCompare p.1 p.2 = .ok r) →
      ∃ r, compareFold pairs cur = .ok r := by
  intro pairs
  induction pairs with
  | nil => intro cur _; exact ⟨cur, rfl⟩
  | cons p rest ih =>
    intro cur h
    obtain ⟨r, hr⟩ := h p (by simp)
    have h2 : ∀ q ∈ rest, ∃ s, opCompare q.1 q.2 = .ok s := fun q hq => h q (by simp [hq])
    rcases p with ⟨x, y⟩
    cases r <;> cases cur <;>
      simp only [compareFold, hr] <;>
      first
      | exact ⟨_, rfl⟩
      | exact ih _ h2

/-- The validator pins the kind of the operation at every index: insertions
exactly at the even positions. -/
theorem validate_isIns {ops : List EditOp} (h : validateWordOrdered ops = true)
    (i : Nat) (hi : i < ops.length) : (ops[i]).isIns = (i % 2 == 0) := by
  unfold validateWordOrdered at h
  rw [Bool.and_eq_true, List.all_eq_true] at h
  have h2 := h.2 i (List.mem_range.mpr hi)
  rw [List.getElem?_eq_getElem hi] at h2
  by_cases hpar : i % 2 == 0
  · rw [if_pos hpar] at h2
    cases hop : ops[i] <;> rw [hop] at h2 <;> simp_all [EditOp.isIns]
  · rw [if_neg hpar] at h2
    cases hop : ops[i] <;> rw [hop] at h2 <;> simp_all [EditOp.isIns]

/-- Two word-ordered corrections of the same length compare without error:
their zipped operations always pair an insertion with an insertion or a
non-insertion with a non-insertion. -/
theorem compareCorr_total_of_wordOrdered {a b : List EditOp}
    (ha : validateWordOrdered a = true) (hb : validateWordOrdered b = true)
    (hl : a.length = b.length) : ∃ r, compareCorr a b = .ok r := by
  unfold compareCorr
  rw [if_pos hl]
  apply compareFold_total
  intro p hp
  obtain ⟨i, hilen, higet⟩ := List.mem_iff_getElem.mp hp
  have hia : i < a.length := by
    rw [List.length_zip] at hilen
    omega
  have hib : i < b.length := by
    rw [List.length_zip] at hilen
    omega
  have hzip : (a.zip b)[i] = (a[i], b[i]) := List.getElem_zip
  rw [hzip] at higet
  apply opCompare_isOk_of_isIns_eq
  rw [← higet]
  show (a[i]).isIns = (b[i]).isIns
  rw [validate_isIns ha i hia, validate_isIns hb i hib]

/-! ### The top-level characterization of `computeSmallestCorrections` -/

/-- Under pairwise-defined comparisons, `__compute_smallest_corrections`
succeeds and returns exactly the elements with no strictly smaller
competitor in the input. -/
theorem computeSmallestCorrections_char (S : List (List EditOp))
    (hdef : ∀ a ∈ S, ∀ b ∈ S, ∃ r, compareCorr a b = .ok r) :
    ∃ L, computeSmallestCorrections S = .ok L ∧
      ∀ c, c ∈ L ↔ c ∈ S ∧ ¬∃ c2 ∈ S, compareCorr c2 c = .ok .smaller := by
  have hdefG : ∀ i j, i < S.length → j < S.length →
      ∃ r, compareCorr (S.getD i []) (S.getD j []) = .ok r := by
    intro i j hi hj
    rw [List.getD_eq_getElem S [] hi, List.getD_eq_getElem S [] hj]
    exact hdef _ (List.getElem_mem hi) _ (List.getElem_mem hj)
  obtain ⟨L, hL, hchar⟩ :=
    smallestOuterLoop_char S.length (fun i => S.getD i []) hdefG S.enum
      (Finset.range S.length) []
      (by
        intro p hp
        obtain ⟨hlt, hget⟩ := List.getElem?_eq_some_iff.mp (List.mem_enum_iff_getElem?.mp hp)
        refine ⟨hlt, ?_⟩
        show p.2 = S.getD p.1 []
        rw [← hget, List.getD_eq_getElem S [] hlt])
      (fun j hj => Finset.mem_range.mp hj)
      (by
        intro j hj hj2
        exact absurd (Finset.mem_range.mpr hj) hj2)
      (by
        intro p hp hp2 w hw hwsm hwmin
        refine ⟨(w, S.getD w []), ?_, rfl⟩
        rw [List.mem_enum_iff_getElem?]
        rw [List.getD_eq_getElem S [] hw]
        exact List.getElem?_eq_getElem hw)
  refine ⟨L, hL, ?_⟩
  intro c
  rw [hchar c]
  constructor
  · rintro (hres | ⟨p, hp, hpc, -, hnw⟩)
    · cases hres
    · obtain ⟨hlt, hget⟩ := List.getElem?_eq_some_iff.mp (List.mem_enum_iff_getElem?.mp hp)
      refine ⟨by rw [← hpc, ← hget]; exact List.getElem_mem hlt, ?_⟩
      rintro ⟨c2, hc2, hc2sm⟩
      obtain ⟨k, hk, hkget⟩ := List.mem_iff_getElem.mp hc2
      apply hnw
      refine ⟨k, hk, ?_⟩
      rw [List.getD_eq_getElem S [] hk, hkget]
      exact hc2sm
  · rintro ⟨hcS, hnw⟩
    obtain ⟨i, hi, higet⟩ := List.mem_iff_getElem.mp hcS
    right
    refine ⟨(i, c), ?_, rfl, Finset.mem_range.mpr hi, ?_⟩
    · rw [List.mem_enum_iff_getElem?]
      rw [List.getElem?_eq_getElem hi, higet]
    · rintro ⟨k, hk, hksm⟩
      apply hnw
      refine ⟨S.getD k [], ?_, hksm⟩
      rw [List.getD_eq_getElem S [] hk]
      exact List.getElem_mem hk

/-! ### The fold of `compare` computes the pointwise lift -/

theorem compareLift_equal_cons (l : List CompareResult) :
    compareLift (.equal :: l) = compareLift l := by
  simp [compareLift]

theorem compareLift_cons_equal (c : CompareResult) (l : List CompareResult) :
    compareLift (c :: .equal :: l) = compareLift (c :: l) := by
  cases c <;> simp [compareLift]

theorem compareLift_cons_dup (c : CompareResult) (l : List CompareResult) :
    compareLift (c :: c :: l) = compareLift (c :: l) := by
  cases c <;> simp [compareLift]

theorem compareLift_of_mem_incomparable {l : List CompareResult}
    (h : .incomparable ∈ l) : compareLift l = .incomparable := by
  have h1 : l.all (fun r => r == CompareResult.equal) = false := by
    rw [List.all_eq_false]
    exact ⟨_, h, by decide⟩
  have h2 : l.all (fun r => r == CompareResult.equal || r == CompareResult.smaller) = false := by
    rw [List.all_eq_false]
    exact ⟨_, h, by decide⟩
  have h3 : l.all (fun r => r == CompareResult.equal || r == CompareResult.bigger) = false := by
    rw [List.all_eq_false]
    exact ⟨_, h, by decide⟩
  simp [compareLift, h1, h2, h3]

theorem compareLift_of_mem_smaller_bigger {l : List CompareResult}
    (hs : .smaller ∈ l) (hb : .bigger ∈ l) : compareLift l = .incomparable := by
  have h1 : l.all (fun r => r == CompareResult.equal) = false := by
    rw [List.all_eq_false]
    exact ⟨_, hs, by decide⟩
  have h2 : l.all (fun r => r == CompareResult.equal || r == CompareResult.smaller) = false := by
    rw [List.all_eq_false]
    exact ⟨_, hb, by decide⟩
  have h3 : l.all (fun r => r == CompareResult.equal || r == CompareResult.bigger) = false := by
    rw [List.all_eq_false]
    exact ⟨_, hs, by decide⟩
  simp [compareLift, h1, h2, h3]

/-- The list of pointwise edit-operation comparison outcomes of a list of
operation pairs; `none` when some comparison raises. -/
def opResults : List (EditOp × EditOp) → Option (List CompareResult)
  | [] => some []
  | p :: rest =>
    match opCompare p.1 p.2 with
    | .error _ => none
    | .ok r => (opResults rest).map (r :: ·)

/-- The state-machine fold of `compare` computes the pointwise lift of the
successfully evaluated operation comparisons, with the running verdict
prepended. -/
theorem compareFold_eq_compareLift :
    ∀ (pairs : List (EditOp × EditOp)) (rs : List CompareResult) (cur : CompareResult),
      opResults pairs = some rs →
      compareFold pairs cur = .ok (compareLift (cur :: rs)) := by
  intro pairs
  induction pairs with
  | nil =>
    intro rs cur h
    have hrs : rs = [] := by
      simpa [opResults] using h.symm
    subst hrs
    cases cur <;> simp [compareFold, compareLift]
  | cons p rest ih =>
    intro rs cur h
    rcases p with ⟨x, y⟩
    simp only [opResults] at h
    cases hop : opCompare x y with
    | error e =>
      rw [hop] at h
      cases h
    | ok r =>
      rw [hop] at h
      cases hrest : opResults rest with
      | none =>
        rw [hrest] at h
        cases h
      | some rs2 =>
        rw [hrest] at h
        have hrs : rs = r :: rs2 := by
          simpa using h.symm
        subst hrs
        cases r with
        | equal =>
          rw [show compareFold ((x, y) :: rest) cur = compareFold rest cur by
            simp [compareFold, hop]]
          rw [ih rs2 cur hrest, compareLift_cons_equal]
        | incomparable =>
          rw [show compareFold ((x, y) :: rest) cur = .ok .incomparable by
            simp [compareFold, hop]]
          rw [compareLift_of_mem_incomparable (by simp)]
        | smaller =>
          cases cur with
          | equal =>
            rw [show compareFold ((x, y) :: rest) .equal = compareFold rest .smaller by
              simp [compareFold, hop]]
            rw [ih rs2 .smaller hrest, compareLift_equal_cons]
          | smaller =>
            rw [show compareFold ((x, y) :: rest) .smaller = compareFold rest .smaller by
              simp [compareFold, hop]]
            rw [ih rs2 .smaller hrest, compareLift_cons_dup]
          | bigger =>
            rw [show compareFold ((x, y) :: rest) .bigger = .ok .incomparable by
              simp [compareFold, hop]]
            rw [compareLift_of_mem_smaller_bigger (by simp) (by simp)]
          | incomparable =>
            rw [show compareFold ((x, y) :: rest) .incomparable = compareFold rest .incomparable by
              simp [compareFold, hop]]
            rw [ih rs2 .incomparable hrest]
            rw [compareLift_of_mem_incomparable (by simp),
              compareLift_of_mem_incomparable (by simp)]
        | bigger =>
          cases cur with
          | equal =>
            rw [show compareFold ((x, y) :: rest) .equal = compareFold rest .bigger by
              simp [compareFold, hop]]
            rw [ih rs2 .bigger hrest, compareLift_equal_cons]
          | smaller =>
            rw [show compareFold ((x, y) :: rest) .smaller = .ok .incomparable by
              simp [compareFold, hop]]
            rw [compareLift_of_mem_smaller_bigger (by simp) (by simp)]
          | bigger =>
            rw [show compareFold ((x, y) :: rest) .bigger = compareFold rest .bigger by
              simp [compareFold, hop]]
            rw [ih rs2 .bigger hrest, compareLift_cons_dup]
          | incomparable =>
            rw [show compareFold ((x, y) :: rest) .incomparable = compareFold rest .incomparable by
              simp [compareFold, hop]]
            rw [ih rs2 .incomparable hrest]
            rw [compareLift_of_mem_incomparable (by simp),
              compareLift_of_mem_incomparable (by simp)]

/-! ### The simplification predicate against the spec cases -/

theorem beq_eq_decide_list (x y : List Char) : (x == y) = decide (x = y) := by
  by_cases h : x = y <;> simp [h]

theorem listEndsWith_eq_isSuffixOf (w x : List Char) :
    listEndsWith w x = x.isSuffixOf w := by
  unfold listEndsWith
  by_cases h : w.drop (w.length - x.length) = x
  · rw [decide_eq_true h]
    symm
    rw [List.isSuffixOf_iff_suffix]
    rw [← h]
    exact List.drop_suffix _ _
  · rw [decide_eq_false h]
    symm
    rw [Bool.eq_false_iff]
    intro h2
    apply h
    obtain ⟨v, hv⟩ := List.isSuffixOf_iff_suffix.mp h2
    have hlen : w.length - x.length = v.length := by
      rw [← hv, List.length_append]
      omega
    rw [hlen, ← hv, List.drop_left]

/-- Modelled from the spec (§4.2.1), case by case in the claim's vocabulary:
both boundary insertions non-empty — not simplifiable; only `a`'s last
insertion non-empty — simplifiable iff the operation after `b`'s first
insertion is a deletion, or a replacement of `x` with `a`'s inserted word
ending in `x`; only `b`'s first insertion non-empty — simplifiable iff the
operation before `a`'s last insertion is a deletion, or a replacement by `r`
with `b`'s inserted word starting with `r`; both empty — simplifiable iff a
replacement by `y` is followed (across the boundary) by a deletion of `y`.
A boundary operation that does not exist (the neighbouring correction is the
lone insertion) makes the case not simplifiable. -/
def canSimplifySpec (a b : List EditOp) : Bool :=
  let wa := insWordOf (a.getLastD (.ins []))
  let wb := insWordOf (b.headD (.ins []))
  if !wa.isEmpty && !wb.isEmpty then false
  else if !wa.isEmpty then
    match (b[1]? : Option EditOp) with
    | some (.del _) => true
    | some (.rep x _) => x.isSuffixOf wa
    | _ => false
  else if !wb.isEmpty then
    match (a[a.length - 2]? : Option EditOp) with
    | some (.del _) => true
    | some (.rep _ r) => wb.take r.length == r
    | _ => false
  else
    match (a[a.length - 2]? : Option EditOp), (b[1]? : Option EditOp) with
    | some (.rep _ y), some (.del x2) => y == x2
    | _, _ => false

/-- A validated correction is non-empty (its length is odd). -/
theorem validate_ne_nil {a : List EditOp} (h : validateWordOrdered a = true) :
    a ≠ [] := by
  intro hnil
  subst hnil
  simp [validateWordOrdered] at h

/-- The first operation of a validated correction is an insertion. -/
theorem validate_head_ins {a : List EditOp} (h : validateWordOrdered a = true)
    (h0 : 0 < a.length) : ∃ w, a[0] = EditOp.ins w := by
  have := validate_isIns h 0 h0
  cases hop : a[0] <;> rw [hop] at this <;> simp [EditOp.isIns] at this
  exact ⟨_, rfl⟩

/-- The last operation of a validated correction is an insertion. -/
theorem validate_last_ins {a : List EditOp} (h : validateWordOrdered a = true) :
    ∃ w, a.getLastD (.ins []) = EditOp.ins w := by
  have hne := validate_ne_nil h
  have hpos : 0 < a.length := List.length_pos.mpr hne
  have hodd : a.length % 2 = 1 := by
    unfold validateWordOrdered at h
    rw [Bool.and_eq_true] at h
    simpa using h.1
  have hlt : a.length - 1 < a.length := by omega
  have hpar := validate_isIns h (a.length - 1) hlt
  have hpar2 : (a.length - 1) % 2 = 0 := by omega
  rw [show ((a.length - 1) % 2 == 0) = true by simp [hpar2]] at hpar
  have hlast : a.getLastD (.ins []) = a[a.length - 1] := by
    rw [List.getLastD_eq_getLast?, List.getLast?_eq_getElem?,
      List.getElem?_eq_getElem hlt]
    rfl
  rw [hlast]
  cases hop : a[a.length - 1] <;> rw [hop] at hpar <;> simp [EditOp.isIns] at hpar
  exact ⟨_, rfl⟩

/-- The initial insertion of a validated correction, as seen through
`headD`. -/
theorem validate_headD_ins {b : List EditOp} (h : validateWordOrdered b = true) :
    ∃ w, b.headD (.ins []) = EditOp.ins w := by
  have hne := validate_ne_nil h
  obtain ⟨w, hw⟩ := validate_head_ins h (List.length_pos.mpr hne)
  cases b with
  | nil => exact absurd rfl hne
  | cons x t => exact ⟨w, by simpa using hw⟩

/-- C6 helper: on validated corrections, `can_simplify` agrees with the
spec-side case analysis. -/
theorem can_simplify_eq_spec_aux (a b : List EditOp)
    (ha : validateWordOrdered a = true) (hb : validateWordOrdered b = true) :
    can_simplify a b = canSimplifySpec a b := by
  obtain ⟨wa, hwa⟩ := validate_last_ins ha
  obtain ⟨wb, hwb⟩ := validate_headD_ins hb
  unfold can_simplify canSimplifySpec
  rw [hwa, hwb]
  simp only [insWordOf]
  cases hwaE : wa.isEmpty <;> cases hwbE : wb.isEmpty <;>
    simp only [Bool.not_true, Bool.not_false, Bool.false_and, Bool.true_and,
      Bool.and_false, Bool.and_true, if_true, if_false, Bool.false_eq_true,
      Bool.true_eq_false, if_pos, ite_true, ite_false]
  · -- wa non-empty, wb empty
    by_cases hb1 : b.length = 1
    · have hbnone : (b[1]? : Option EditOp) = none := List.getElem?_eq_none (by omega)
      rw [if_pos (by simp [hb1]), hbnone]
    · rw [if_neg (by simp [hb1])]
      cases (b[1]? : Option EditOp) with
      | none => rfl
      | some op =>
        cases op with
        | rep x r => exact listEndsWith_eq_isSuffixOf wa x
        | ins w => rfl
        | del x => rfl
        | read x => rfl
  · -- wa empty, wb non-empty
    by_cases ha1 : a.length = 1
    · rw [if_pos (by simp [ha1])]
      obtain ⟨w, hw⟩ := validate_head_ins ha (by omega)
      have ha0 : (a[a.length - 2]? : Option EditOp) = some (EditOp.ins w) := by
        rw [show a.length - 2 = 0 by omega, List.getElem?_eq_getElem (by omega), hw]
      rw [ha0]
    · rw [if_neg (by simp [ha1])]
      cases (a[a.length - 2]? : Option EditOp) with
      | none => rfl
      | some op =>
        cases op with
        | rep x r => exact (beq_eq_decide_list (wb.take r.length) r).symm
        | ins w => rfl
        | del x => rfl
        | read x => rfl
  · -- both empty
    by_cases hb1 : b.length = 1
    · have hbnone : (b[1]? : Option EditOp) = none := List.getElem?_eq_none (by omega)
      rw [if_pos (by simp [hb1]), hbnone]
      cases (a[a.length - 2]? : Option EditOp) with
      | none => rfl
      | some op => cases op <;> rfl
    · by_cases ha1 : a.length = 1
      · rw [if_pos (by simp [ha1])]
        obtain ⟨w, hw⟩ := validate_head_ins ha (by omega)
        have ha0 : (a[a.length - 2]? : Option EditOp) = some (EditOp.ins w) := by
          rw [show a.length - 2 = 0 by omega, List.getElem?_eq_getElem (by omega), hw]
        rw [ha0]
      · rw [if_neg (by simp [hb1, ha1])]

/-! ### Concatenation and application -/

theorem applyCorr_append (xs ys : List EditOp) :
    applyCorr (xs ++ ys) = applyCorr xs ++ applyCorr ys := by
  induction xs with
  | nil => simp [applyCorr]
  | cons op rest ih =>
    simp only [List.cons_append, applyCorr, List.append_eq, ih, List.append_assoc]

/-- A validated correction decomposes as a front part plus its final
insertion. -/
theorem validate_decomp_last {a : List EditOp} (h : validateWordOrdered a = true) :
    ∃ as wa, a = as ++ [EditOp.ins wa] := by
  have hne := validate_ne_nil h
  obtain ⟨wa, hwa⟩ := validate_last_ins h
  have hpos : 0 < a.length := List.length_pos.mpr hne
  have hlt : a.length - 1 < a.length := by omega
  have hgl : a.getLastD (EditOp.ins []) = a.getLast hne := by
    rw [List.getLastD_eq_getLast?, List.getLast?_eq_getElem?,
      List.getElem?_eq_getElem hlt, List.getLast_eq_getElem]
    rfl
  refine ⟨a.dropLast, wa, ?_⟩
  have hlast2 : a.getLast hne = EditOp.ins wa := by rw [← hgl]; exact hwa
  nth_rewrite 1 [← List.dropLast_append_getLast hne]
  rw [hlast2]

/-- A validated correction decomposes as its initial insertion plus a tail.
-/
theorem validate_decomp_head {b : List EditOp} (h : validateWordOrdered b = true) :
    ∃ wb bs, b = EditOp.ins wb :: bs := by
  have hne := validate_ne_nil h
  obtain ⟨wb, hwb⟩ := validate_head_ins h (List.length_pos.mpr hne)
  cases b with
  | nil => exact absurd rfl hne
  | cons x t =>
    refine ⟨wb, t, ?_⟩
    have : x = EditOp.ins wb := by simpa using hwb
    rw [this]

/-! ### Concrete forests for the recognizer claims -/

/-- The CSPPF that ALCEP builds for the grammar `S → a` and the empty input:
the root symbol node `(S, 0, 0)` has a single packed child created by the
insertion rule (`alcep.py`, lines 183-209) whose left child is absent (the
seed item has `ptr = 0` and no node) and whose right child is the
`Insert("a")` token node. -/
def alcepForestSaEmpty : FNode :=
  .sym [.packed none (.tok (.ins ['a']))]

/-- The deletion chain of the CSPPF that OALCEP synthesises for the grammar
`S → a` on a two-token input `w`: the root `(S, 0, 2)` has a deletion family
over `(S, 0, 1)`, which has a deletion family over `(S, 0, 0)`, which has the
insertion family with absent left child.  Both deletion token nodes carry
`DeletionOperation(letter=tokens[0])` exactly as `__compute_edges` creates
them (`oalcep.py`, line 156). -/
def oalcepDeleteChainSa (w : List (List Char)) : FNode :=
  .sym [.packed
    (some (.sym [.packed
      (some (.sym [.packed none (.tok (.ins ['a']))]))
      (.tok (.del (w.headD [])))]))
    (.tok (.del (w.headD [])))]

/-! ### The claims -/

/-- C1: the streaming recognizer (ALCEP) and the offline recognizer (OALCEP)
are claimed to produce structurally equal CSPPFs on every grammar and input,
which in particular requires every deletion token node reached at position
`i` to carry the same deleted letter in both forests.  On the input `"ab"`
the deletion token created for position 2 carries the letter `b` in the
ALCEP forest (the deletion rule receives the current token) but the letter
`a` in the OALCEP forest (`__compute_edges` always uses `tokens[0]`), and
the token-node equality of `equal_node_without_child` distinguishes the two
nodes, so the claimed structural equality fails. -/
theorem C1_csppf_equality_fails :
    alcepDeleteEdges [['a'], ['b']] = [(1, .del ['a']), (2, .del ['b'])] ∧
    oalcepQ0DeleteEdges [['a'], ['b']] = [(1, .del ['a']), (2, .del ['a'])] ∧
    equalTokenNodes (.del ['b']) (.del ['a']) = false := by
  decide

/-- C2: the claim that every item of the initial Earley set whose dot faces
a terminal is in the `to_scan` set used by the first shift phase fails: for
the grammar `S → a` on input `"a"`, `parse` computes the initial `to_scan`
`{[S → • a, 0]}`, but the first loop iteration of `_parse` overwrites
`to_scan` with the freshly created empty `next_to_scan`, so the first shift
phase scans nothing and creates only deletion token nodes — the read-only
correction `[Insert(""), Read("a"), Insert("")]` is never produced. -/
theorem C2_first_shift_toScan_empty :
    alcepInitialToScan grammarSa ['S'] = [⟨0, 0, 0⟩] ∧
    alcepFirstStep grammarSa basicMatcher ['S'] ['a'] 20 =
      some ([⟨0, 0, 0⟩, ⟨0, 1, 0⟩], [], [⟨0, 0, 0⟩, ⟨0, 1, 0⟩],
        [.del ['a'], .del ['a']]) := by
  decide

/-- C3: the claim that every correction obtained from the CSPPF of either
recognizer has input projection equal to the input word fails for OALCEP:
on the grammar `S → a` and input `"ab"`, the correction derived from the
deletion chain of the OALCEP forest is
`[Insert("a"), Delete("a"), Insert(""), Delete("a"), Insert("")]` — the
deletion at position 1 carries `tokens[0] = "a"` instead of `tokens[1] =
"b"` — and its input projection `"aa"` differs from the input word `"ab"`.
-/
theorem C3_oalcep_input_projection_differs :
    nodeCorrectionsPlain false (oalcepDeleteChainSa [['a'], ['b']]) =
      [[.ins ['a'], .del ['a'], .ins [], .del ['a'], .ins []]] ∧
    inputProjection [.ins ['a'], .del ['a'], .ins [], .del ['a'], .ins []] =
      [['a'], ['a']] ∧
    ([['a'], ['a']] : List (List Char)) ≠ [['a'], ['b']] := by
  decide

/-- C4 (counterexample): on a set containing two word-ordered corrections of
different lengths the smallest-corrections filter does not terminate without
error: the pairwise `compare` call raises the same-length assertion, so the
claim that elements of different lengths simply never eliminate each other
fails. -/
theorem C4_mixed_length_filter_errors :
    computeSmallestCorrections [[.ins []], [.ins [], .read ['a'], .ins []]] =
      .error "Only word_ordered corrections of the same length can be compared." := by
  rfl

/-- C4 (amended): for every finite list of word-ordered corrections of one
common length, `__compute_smallest_corrections` terminates without error and
returns exactly the elements `c` such that no element of the input compares
strictly smaller than `c`; on inputs of mixed lengths it instead raises the
same-length assertion of `compare`. -/
theorem C4_smallest_filter_characterization (S : List (List EditOp))
    (hwo : ∀ c ∈ S, validateWordOrdered c = true)
    (hlen : ∀ a2 ∈ S, ∀ b2 ∈ S, a2.length = b2.length) :
    ∃ L, computeSmallestCorrections S = .ok L ∧
      ∀ c, c ∈ L ↔ c ∈ S ∧ ¬∃ c2 ∈ S, compareCorr c2 c = .ok .smaller :=
  computeSmallestCorrections_char S fun a2 ha2 b2 hb2 =>
    compareCorr_total_of_wordOrdered (hwo a2 ha2) (hwo b2 hb2) (hlen a2 ha2 b2 hb2)

/-- Witness for C4: on the two length-3 corrections reading `a` and deleting
`a`, the filter succeeds and keeps exactly the read correction. -/
theorem C4_smallest_filter_characterization_witness :
    (∀ c ∈ [[EditOp.ins [], EditOp.read ['a'], EditOp.ins []],
            [EditOp.ins [], EditOp.del ['a'], EditOp.ins []]],
        validateWordOrdered c = true) ∧
    (∀ a2 ∈ [[EditOp.ins [], EditOp.read ['a'], EditOp.ins []],
             [EditOp.ins [], EditOp.del ['a'], EditOp.ins []]],
      ∀ b2 ∈ [[EditOp.ins [], EditOp.read ['a'], EditOp.ins []],
              [EditOp.ins [], EditOp.del ['a'], EditOp.ins []]],
        a2.length = b2.length) ∧
    (∃ L, computeSmallestCorrections
        [[EditOp.ins [], EditOp.read ['a'], EditOp.ins []],
         [EditOp.ins [], EditOp.del ['a'], EditOp.ins []]] = .ok L ∧
      ∀ c, c ∈ L ↔
        c ∈ [[EditOp.ins [], EditOp.read ['a'], EditOp.ins []],
             [EditOp.ins [], EditOp.del ['a'], EditOp.ins []]] ∧
          ¬∃ c2 ∈ [[EditOp.ins [], EditOp.read ['a'], EditOp.ins []],
                   [EditOp.ins [], EditOp.del ['a'], EditOp.ins []]],
            compareCorr c2 c = .ok .smaller) :=
  ⟨by decide, by decide,
    C4_smallest_filter_characterization _ (by decide) (by decide)⟩

/-- C5: the claim that the counted bounds also bound single-token-node
corrections that reach the root without any concatenation fails: for the
grammar `S → a` and empty input with `max_edits = 0`, the root's only packed
child has no left child, so `visit_token_node` places the one-insertion
correction (1 edit, exceeding the bound 0) into the result set without any
bounds check — only `concatenate` checks the ceilings. -/
theorem C5_counted_bounds_not_enforced_on_token_nodes :
    (⟨-1, -1, -1, 0⟩ : EditBounds).max_number_of_edits = 0 ∧
    nodeCorrectionsCounted ⟨-1, -1, -1, 0⟩ false alcepForestSaEmpty =
      [⟨[.ins ['a']], 1, 0, 0⟩] ∧
    CountedCorr.totalEdits ⟨[.ins ['a']], 1, 0, 0⟩ = 1 := by
  decide

/-- C6 (counterexample): the claim that a length-1 correction on either side
never makes the pair simplifiable is false: `[Insert("x")]` has length 1,
yet against `[Insert(""), Delete("y"), Insert("")]` the predicate reports
the pair simplifiable (the non-empty last insertion of the left side meets a
deletion after the empty first insertion of the right side). -/
theorem C6_length_one_clause_fails :
    can_simplify [.ins ['x']] [.ins [], .del ['y'], .ins []] = true ∧
    ([.ins ['x']] : List EditOp).length = 1 := by
  decide

/-- C6 (amended): on word-ordered corrections, `can_simplify` returns true
exactly per the cases of §4.2.1, where the length-1 guard applies only to
the side whose boundary insertion is empty (the lone empty insertion): both
boundary insertions non-empty — false; only `a`'s last insertion non-empty —
true iff the operation after `b`'s first insertion is a deletion or a
replacement of `x` with `a`'s word ending in `x`; only `b`'s first insertion
non-empty — true iff the operation before `a`'s last insertion is a deletion
or a replacement by `r` with `b`'s word starting with `r`; both empty — true
iff a replacement by `y` meets a deletion of `y` across the boundary. -/
theorem C6_can_simplify_matches_spec_cases (a b : List EditOp)
    (ha : validateWordOrdered a = true) (hb : validateWordOrdered b = true) :
    can_simplify a b = canSimplifySpec a b :=
  can_simplify_eq_spec_aux a b ha hb

/-- Witness for C6 at a concrete validated pair. -/
theorem C6_can_simplify_matches_spec_cases_witness :
    validateWordOrdered [EditOp.ins [], EditOp.del ['z'], EditOp.ins ['x']] = true ∧
    validateWordOrdered [EditOp.ins [], EditOp.del ['y'], EditOp.ins []] = true ∧
    can_simplify [EditOp.ins [], EditOp.del ['z'], EditOp.ins ['x']]
        [EditOp.ins [], EditOp.del ['y'], EditOp.ins []] =
      canSimplifySpec [EditOp.ins [], EditOp.del ['z'], EditOp.ins ['x']]
        [EditOp.ins [], EditOp.del ['y'], EditOp.ins []] :=
  ⟨by decide, by decide,
    C6_can_simplify_matches_spec_cases _ _ (by decide) (by decide)⟩

/-- C7: for equal-length corrections whose pointwise edit-operation
comparisons are all defined, `compare` equals the pointwise lift of the
edit-operation comparison: EQUAL if all positions compare EQUAL; SMALLER
(resp. BIGGER) if every position compares EQUAL or SMALLER (resp. BIGGER)
with at least one strict; INCOMPARABLE as soon as any position compares
INCOMPARABLE or both a strict SMALLER and a strict BIGGER occur. -/
theorem C7_compare_is_pointwise_lift (a b : List EditOp) (rs : List CompareResult)
    (hlen : a.length = b.length)
    (hrs : opResults (a.zip b) = some rs) :
    compareCorr a b = .ok (compareLift rs) := by
  unfold compareCorr
  rw [if_pos hlen]
  rw [compareFold_eq_compareLift (a.zip b) rs .equal hrs, compareLift_equal_cons]

/-- Witness for C7: reading `a` then inserting `b` is pointwise below
deleting `a` then inserting `bc`, and `compare` returns the lifted SMALLER.
-/
theorem C7_compare_is_pointwise_lift_witness :
    ([EditOp.ins [], EditOp.read ['a'], EditOp.ins ['b']] : List EditOp).length =
      ([EditOp.ins [], EditOp.del ['a'], EditOp.ins ['b', 'c']] : List EditOp).length ∧
    opResults (List.zip [EditOp.ins [], EditOp.read ['a'], EditOp.ins ['b']]
        [EditOp.ins [], EditOp.del ['a'], EditOp.ins ['b', 'c']]) =
      some [.equal, .smaller, .smaller] ∧
    compareCorr [EditOp.ins [], EditOp.read ['a'], EditOp.ins ['b']]
        [EditOp.ins [], EditOp.del ['a'], EditOp.ins ['b', 'c']] =
      .ok (compareLift [.equal, .smaller, .smaller]) :=
  ⟨by decide, by decide,
    C7_compare_is_pointwise_lift _ _ _ (by decide) (by decide)⟩

/-- C8: comparing a read, deletion or replacement operation with an
insertion operation (or an insertion with a non-insertion) raises an
explicit error carrying the source message; the comparison never returns a
silent verdict for such a mixed pair. -/
theorem C8_mixed_operation_compare_errors (x y : EditOp) (h : x.isIns ≠ y.isIns) :
    ∃ msg, opCompare x y = .error msg := by
  cases x <;> cases y <;>
    first
    | exact absurd rfl h
    | exact ⟨_, rfl⟩

/-- Witness for C8 at a deletion compared with an insertion. -/
theorem C8_mixed_operation_compare_errors_witness :
    (EditOp.del ['a']).isIns ≠ (EditOp.ins ['b']).isIns ∧
    ∃ msg, opCompare (.del ['a']) (.ins ['b']) = .error msg :=
  ⟨by decide, C8_mixed_operation_compare_errors _ _ (by decide)⟩

/-- C9: the empty correction (empty operation list, zero counters for the
counted variant) is a two-sided identity of `concatenate`, for any value of
the simplify flag and any configured bounds.  For the counted variant with
an empty-operations left argument the source returns the right argument
unchanged (counters included); symmetrically on the right, provided the
argument itself is not an artificial empty-operations correction carrying
non-zero counters (the constructor always initialises counters to zero). -/
theorem C9_empty_correction_identity (c : List EditOp) (simplify : Bool)
    (B : EditBounds) (cc : CountedCorr)
    (hcc : cc.operations = [] → cc = ⟨[], 0, 0, 0⟩) :
    concatenate [] c simplify = some c ∧
    concatenate c [] simplify = some c ∧
    countedConcat B ⟨[], 0, 0, 0⟩ cc simplify = some cc ∧
    countedConcat B cc ⟨[], 0, 0, 0⟩ simplify = some cc := by
  refine ⟨?_, ?_, ?_, ?_⟩
  · simp [concatenate]
  · cases c <;> simp [concatenate]
  · rcases cc with ⟨ops, n1, n2, n3⟩
    cases ops <;> simp [countedConcat]
  · rcases hops : cc.operations with _ | ⟨op, rest⟩
    · rw [hcc hops]
      simp [countedConcat]
    · rcases cc with ⟨ops, n1, n2, n3⟩
      simp only at hops
      subst hops
      simp [countedConcat]

/-- Witness for C9 at a one-read counted correction. -/
theorem C9_empty_correction_identity_witness :
    ((⟨[.ins [], .read ['a'], .ins []], 0, 0, 0⟩ : CountedCorr).operations = [] →
      (⟨[.ins [], .read ['a'], .ins []], 0, 0, 0⟩ : CountedCorr) = ⟨[], 0, 0, 0⟩) ∧
    (concatenate [] [.ins ['a']] true = some [.ins ['a']] ∧
     concatenate [.ins ['a']] [] true = some [.ins ['a']] ∧
     countedConcat ⟨-1, -1, -1, -1⟩ ⟨[], 0, 0, 0⟩
        ⟨[.ins [], .read ['a'], .ins []], 0, 0, 0⟩ true =
       some ⟨[.ins [], .read ['a'], .ins []], 0, 0, 0⟩ ∧
     countedConcat ⟨-1, -1, -1, -1⟩ ⟨[.ins [], .read ['a'], .ins []], 0, 0, 0⟩
        ⟨[], 0, 0, 0⟩ true =
       some ⟨[.ins [], .read ['a'], .ins []], 0, 0, 0⟩) :=
  ⟨by decide,
    C9_empty_correction_identity [.ins ['a']] true ⟨-1, -1, -1, -1⟩
      ⟨[.ins [], .read ['a'], .ins []], 0, 0, 0⟩ (by decide)⟩

/-- C10: on word-ordered corrections, `concatenate` with `simplify = false`
never rejects, and applying the fused correction yields the concatenation of
the two applications: fusing the boundary insertions preserves the emitted
output string. -/
theorem C10_concat_total_apply_append (a b : List EditOp)
    (ha : validateWordOrdered a = true) (hb : validateWordOrdered b = true) :
    ∃ c, concatenate a b false = some c ∧
      applyCorr c = applyCorr a ++ applyCorr b := by
  obtain ⟨as, wa, hdeca⟩ := validate_decomp_last ha
  obtain ⟨wb, bs, hdecb⟩ := validate_decomp_head hb
  have hane : a ≠ [] := validate_ne_nil ha
  have hbne : b ≠ [] := validate_ne_nil hb
  have hae : a.isEmpty = false := by
    cases a with
    | nil => exact absurd rfl hane
    | cons x t => rfl
  have hbe : b.isEmpty = false := by
    cases b with
    | nil => exact absurd rfl hbne
    | cons x t => rfl
  refine ⟨a.dropLast
      ++ [.ins (insWordOf (a.getLastD (.ins [])) ++ insWordOf (b.headD (.ins [])))]
      ++ b.tail, ?_, ?_⟩
  · unfold concatenate
    rw [hae, hbe]
    simp
  · have hwa2 : a.getLastD (.ins []) = EditOp.ins wa := by
      rw [hdeca]
      exact List.getLastD_concat _ _ _
    have hwb2 : b.headD (.ins []) = EditOp.ins wb := by
      rw [hdecb]
      rfl
    have hdla : a.dropLast = as := by
      rw [hdeca]
      exact List.dropLast_concat ..
    have htlb : b.tail = bs := by
      rw [hdecb]
      rfl
    rw [hwa2, hwb2]
    simp only [insWordOf]
    rw [hdla, htlb, applyCorr_append, applyCorr_append]
    rw [hdeca, hdecb, applyCorr_append]
    simp [applyCorr, List.append_assoc]

/-- Witness for C10 at two concrete word-ordered corrections. -/
theorem C10_concat_total_apply_append_witness :
    validateWordOrdered [EditOp.ins ['u'], EditOp.read ['a'], EditOp.ins ['v']] = true ∧
    validateWordOrdered [EditOp.ins ['w'], EditOp.del ['b'], EditOp.ins []] = true ∧
    ∃ c, concatenate [EditOp.ins ['u'], EditOp.read ['a'], EditOp.ins ['v']]
        [EditOp.ins ['w'], EditOp.del ['b'], EditOp.ins []] false = some c ∧
      applyCorr c =
        applyCorr [EditOp.ins ['u'], EditOp.read ['a'], EditOp.ins ['v']] ++
          applyCorr [EditOp.ins ['w'], EditOp.del ['b'], EditOp.ins []] :=
  ⟨by decide, by decide,
    C10_concat_total_apply_append _ _ (by decide) (by decide)⟩

end Alcep
